import Mathlib

/-! imageRenameAI: a shallow embedding of `main.go`.

The development follows the three parts of the program:

* `extractTimePattern`: the regular expression `\b\d{2}:\d{2}:\d{2}\b`, `FindString` and
  `strings.ReplaceAll`;
* `copyFile` and the file-system calls it is made of;
* `processImages`: two `filepath.Walk` traversals, the remote OCR call, the progress bar
  and the window.

Go strings are modelled by `String` (a sequence of runes), a path by the list of its
elements, a file's content by a list of bytes.
-/

namespace ImageRename

/-! ## Regular expression `\b\d{2}:\d{2}:\d{2}\b` -/

/-- Perl class `\d` of Go's `regexp/syntax`: the ASCII digits `0` to `9` only. -/
def isDigit (c : Char) : Bool := decide (48 ≤ c.toNat) && decide (c.toNat ≤ 57)

/-- Perl class `\w` of Go's `regexp/syntax`: `[0-9A-Za-z_]`; `\b` is defined from it. -/
def isWordChar (c : Char) : Bool :=
  (decide (48 ≤ c.toNat) && decide (c.toNat ≤ 57)) ||
  (decide (65 ≤ c.toNat) && decide (c.toNat ≤ 90)) ||
  (decide (97 ≤ c.toNat) && decide (c.toNat ≤ 122)) ||
  decide (c.toNat = 95)

/-- Whether a neighbouring rune is a word rune; no rune (start or end of text) is not. -/
def isWordRune : Option Char → Bool
  | none => false
  | some c => isWordChar c

/-- One element of a compiled pattern. The pattern of `extractTimePattern` has no alternation
and no repetition other than `{2}`, which the compiler unrolls. -/
inductive Inst where
  | wordBoundary
  | digit
  | rune (c : Char)
deriving DecidableEq, Repr

/-- The program for `\b\d{2}:\d{2}:\d{2}\b`. -/
def timeRegexp : List Inst :=
  [.wordBoundary, .digit, .digit, .rune ':', .digit, .digit, .rune ':', .digit, .digit,
   .wordBoundary]

/-- Anchored match of `prog` at the current position. `prev` is the rune just before the
position, `rest` the text from the position on; the result is the matched text. -/
def matchAt : List Inst → Option Char → List Char → Option (List Char)
  | [], _, _ => some []
  | .wordBoundary :: is, prev, rest =>
      if isWordRune prev != isWordRune rest.head? then matchAt is prev rest else none
  | .digit :: _, _, [] => none
  | .digit :: is, _, c :: cs =>
      if isDigit c then (matchAt is (some c) cs).map (c :: ·) else none
  | .rune _ :: _, _, [] => none
  | .rune a :: is, _, c :: cs =>
      if c = a then (matchAt is (some c) cs).map (c :: ·) else none

/-- Unanchored search: the match at the leftmost position where `prog` matches, the empty
text when there is none. -/
def findFrom (prog : List Inst) : Option Char → List Char → List Char
  | prev, [] => (matchAt prog prev []).getD []
  | prev, c :: cs =>
      match matchAt prog prev (c :: cs) with
      | some m => m
      | none => findFrom prog (some c) cs

/-- Method `(*Regexp).FindString`: the text of the leftmost match, `""` if there is none. -/
def FindString (prog : List Inst) (s : String) : String := ⟨findFrom prog none s.data⟩

/-- Go's `strings.ReplaceAll(s, old, new)` for a one-rune `old` and a one-rune `new`: every
occurrence of the rune is replaced. -/
def ReplaceAll (s : String) (old new : Char) : String :=
  ⟨s.data.map (fun c => if c = old then new else c)⟩

/-- Lines 101-106 of `main.go`. -/
def extractTimePattern (text : String) : String :=
  let timePattern := FindString timeRegexp text
  let timePattern := ReplaceAll timePattern ':' '.'
  timePattern

/-! ### The wording of the specification of `extractTimePattern` -/

/-- Two digits, colon, two digits, colon, two digits at offset `i` of `t`. -/
def timeShapedAt (t : List Char) (i : Nat) : Bool :=
  (t[i]?).any isDigit && (t[i+1]?).any isDigit && decide (t[i+2]? = some ':') &&
  (t[i+3]?).any isDigit && (t[i+4]?).any isDigit && decide (t[i+5]? = some ':') &&
  (t[i+6]?).any isDigit && (t[i+7]?).any isDigit

/-- The rune before offset `i` of `t`, if any. -/
def runeBefore (t : List Char) : Nat → Option Char
  | 0 => none
  | k + 1 => t[k]?

/-- Offset `i` of `t` is a word boundary: a word rune on exactly one side. -/
def isWordBoundary (t : List Char) (i : Nat) : Bool :=
  isWordRune (runeBefore t i) != isWordRune t[i]?

/-- A time-shaped substring starts at offset `i` and is bounded by word boundaries. -/
def timeMatchAt (t : List Char) (i : Nat) : Bool :=
  isWordBoundary t i && timeShapedAt t i && isWordBoundary t (i + 8)

/-- The eight runes of `t` from offset `i`, colons written as periods. -/
def periodsAt (t : List Char) (i : Nat) : String :=
  ⟨((t.drop i).take 8).map (fun c => if c = ':' then '.' else c)⟩

/-- The condition under which the time pattern matches at a position, stated on the rune
before the position and the text from the position on. -/
def timeMatchHere (prev : Option Char) (r : List Char) : Bool :=
  (isWordRune prev != isWordRune r[0]?) && timeShapedAt r 0 &&
    (isWordRune r[7]? != isWordRune r[8]?)

/-! ## File system

A tree of regular files and directories, addressed by absolute paths. The model has no
permissions, no links and no second process: a call fails only for the shape of the tree
(a missing element, a regular file where a directory is needed, a directory where a regular
file is needed). -/

/-- The content of a regular file. -/
abbrev Bytes := List Nat

/-- A path, as the list of its elements from the root of the disk. -/
abbrev Path := List String

/-- Go's `filepath.Join(dir, name)` for a clean `dir` and a one-element `name`. -/
def Join (dir : Path) (name : String) : Path := dir ++ [name]

/-- A file-system object. -/
inductive Node where
  | file (content : Bytes)
  | dir (entries : List (String × Node))

/-- The disk: its root directory. -/
abbrev FS := Node

/-- Error values. The first three are the `errno` values of the file-system calls; `network`
and `responseFormat` are the failures of the HTTP exchange and of `json.Unmarshal`;
`tooDeep` is returned by `walk` when its recursion bound is used up. -/
inductive Err where
  | notExist
  | notDir
  | isDir
  | network
  | responseFormat
  | tooDeep
deriving DecidableEq, Repr

/-- Go's `os.IsNotExist`. -/
def IsNotExist : Err → Bool
  | .notExist => true
  | _ => false

def Node.isDir : Node → Bool
  | .file _ => false
  | .dir _ => true

/-- Number of levels of a tree: 1 for a regular file or an empty directory. -/
def Node.height : Node → Nat
  | .file _ => 1
  | .dir es => 1 + heightList es
where
  /-- The largest height among the entries. -/
  heightList : List (String × Node) → Nat
  | [] => 0
  | (_, c) :: rest => max c.height (heightList rest)

/-- Path resolution. -/
def Node.resolve : Node → Path → Except Err Node
  | n, [] => .ok n
  | .file _, _ :: _ => .error .notDir
  | .dir es, name :: rest =>
      match es.lookup name with
      | none => .error .notExist
      | some c => c.resolve rest

/-- Replaces the entry called `name`, or adds it. -/
def setEntry (name : String) (n : Node) : List (String × Node) → List (String × Node)
  | [] => [(name, n)]
  | (k, c) :: rest => if k = name then (k, n) :: rest else (k, c) :: setEntry name n rest

/-- Makes `path` a regular file with the given content: an existing regular file is
overwritten, a missing last element is created in its (existing) directory. -/
def Node.put : Node → Path → Bytes → Except Err Node
  | .file _, [], b => .ok (.file b)
  | .dir _, [], _ => .error .isDir
  | .file _, _ :: _, _ => .error .notDir
  | .dir es, name :: rest, b =>
      match es.lookup name with
      | some c =>
          match c.put rest b with
          | .ok c' => .ok (.dir (setEntry name c' es))
          | .error e => .error e
      | none =>
          match rest with
          | [] => .ok (.dir (setEntry name (.file b) es))
          | _ :: _ => .error .notExist

/-- Go's `os.MkdirAll(path, 0755)`: creates the directory and every missing parent; fails when
an element of the path is a regular file. -/
def Node.mkdirAll : Node → Path → Except Err Node
  | .file _, _ => .error .notDir
  | .dir es, [] => .ok (.dir es)
  | .dir es, name :: rest =>
      match (match es.lookup name with
        | some c => c.mkdirAll rest
        | none => (Node.dir []).mkdirAll rest) with
      | .ok c' => .ok (.dir (setEntry name c' es))
      | .error e => .error e

/-- What `os.FileInfo` gives to this program. -/
structure FileInfo where
  name : String
  isDir : Bool
deriving DecidableEq, Repr

/-- Go's `filepath.Base`. -/
def Base (path : Path) : String := path.getLast?.getD "/"

/-- Go's `os.Lstat`; `os.Stat` is the same function, as the model has no links. -/
def Lstat (fs : FS) (path : Path) : Except Err FileInfo :=
  match fs.resolve path with
  | .ok n => .ok ⟨Base path, n.isDir⟩
  | .error e => .error e

/-- Go's `os.Open`: succeeds on every existing object (a directory can be opened too). -/
def osOpen (fs : FS) (path : Path) : Except Err Unit :=
  match fs.resolve path with
  | .ok _ => .ok ()
  | .error e => .error e

/-- Reading an open file to its end; reading a directory fails. -/
def readAll (fs : FS) (path : Path) : Except Err Bytes :=
  match fs.resolve path with
  | .ok (.file b) => .ok b
  | .ok (.dir _) => .error .isDir
  | .error e => .error e

/-- Go's `os.Create`: `O_RDWR|O_CREATE|O_TRUNC`, the file is empty afterwards. -/
def osCreate (fs : FS) (path : Path) : Except Err FS := fs.put path []

/-- Lines 108-123 of `main.go`. The result is the file system after the call and the returned
`error` (`none` for `nil`). `io.Copy` reads the source after `os.Create` has truncated the
destination, and writes what it read to the destination. -/
def copyFile (fs : FS) (src dst : Path) : FS × Option Err :=
  match osOpen fs src with
  | .error err => (fs, some err)
  | .ok _ =>
    match osCreate fs dst with
    | .error err => (fs, some err)
    | .ok fs1 =>
      match readAll fs1 src with
      | .error err => (fs1, some err)
      | .ok b =>
        match fs1.put dst b with
        | .error err => (fs1, some err)
        | .ok fs2 => (fs2, none)

/-- Loop of `filepath.Ext`, from the last byte backwards: `before` is the text up to the
current index, reversed; `after` the text behind the index. -/
def extLoop : List Char → List Char → List Char
  | [], _ => []
  | c :: before, after =>
      if c = '/' then []
      else if c = '.' then c :: after
      else extLoop before (c :: after)

/-- Go's `filepath.Ext`: the suffix beginning at the final dot of the last element, `""` if
there is no dot. -/
def Ext (path : String) : String := ⟨extLoop path.data.reverse []⟩

/-- Order of `sort.Strings`: lexicographic by code point. -/
def runesLE : List Char → List Char → Bool
  | [], _ => true
  | _ :: _, [] => false
  | a :: as, b :: bs =>
      decide (a.toNat < b.toNat) || (decide (a.toNat = b.toNat) && runesLE as bs)

def nameLE (a b : String) : Prop := runesLE a.data b.data = true

instance : DecidableRel nameLE := fun a b =>
  inferInstanceAs (Decidable (runesLE a.data b.data = true))

/-- The function `readDirNames` of `path/filepath`: the names in the directory, sorted. -/
def readDirNames (fs : FS) (path : Path) : Except Err (List String) :=
  match fs.resolve path with
  | .ok (.dir es) => .ok ((es.map Prod.fst).insertionSort nameLE)
  | .ok (.file _) => .error .notDir
  | .error e => .error e

/-! ## `filepath.Walk` -/

/-- Go's `filepath.WalkFunc`, with the state the callback works on passed explicitly. The result
is the new state and the returned `error` (`none` for `nil`). -/
abbrev WalkFunc (σ : Type) := Path → FileInfo → Option Err → σ → σ × Option Err

/-- The `FileInfo` argument when `Lstat` failed; Go passes `nil`, which neither callback of
this program looks at before returning. -/
def noInfo : FileInfo := ⟨"", false⟩

/-- The `for _, name := range names` loop of `walk`. `walkChild` is the recursive call.
Neither callback of this program returns `filepath.SkipDir`, so every non-nil error ends the
loop. -/
def walkNames {σ : Type} (getFS : σ → FS) (walkFn : WalkFunc σ)
    (walkChild : Path → FileInfo → σ → σ × Option Err) (path : Path) :
    List String → σ → σ × Option Err
  | [], s => (s, none)
  | name :: names, s =>
      let filename := Join path name
      match Lstat (getFS s) filename with
      | .error err =>
          match walkFn filename noInfo (some err) s with
          | (s1, some e) => (s1, some e)
          | (s1, none) => walkNames getFS walkFn walkChild path names s1
      | .ok fileInfo =>
          match walkChild filename fileInfo s with
          | (s1, some e) => (s1, some e)
          | (s1, none) => walkNames getFS walkFn walkChild path names s1

/-- The function `walk` of `path/filepath`. The first argument bounds the depth of the
recursion. -/
def walk {σ : Type} (getFS : σ → FS) (walkFn : WalkFunc σ) :
    Nat → Path → FileInfo → σ → σ × Option Err
  | 0, _, _, s => (s, some .tooDeep)
  | fuel + 1, path, info, s =>
      if !info.isDir then walkFn path info none s
      else
        match readDirNames (getFS s) path with
        | .error err => walkFn path info (some err) s
        | .ok names =>
            match walkFn path info none s with
            | (s1, some e) => (s1, some e)
            | (s1, none) => walkNames getFS walkFn (walk getFS walkFn fuel) path names s1

/-- Depth bound given to `walk`: enough for every level of the disk and for the two levels
`processImages` may add below the folder it walks. -/
def walkFuel (fs : FS) (root : Path) : Nat := max fs.height (root.length + 3)

/-- Go's `filepath.Walk`. -/
def Walk {σ : Type} (getFS : σ → FS) (root : Path) (walkFn : WalkFunc σ) (s : σ) :
    σ × Option Err :=
  match Lstat (getFS s) root with
  | .error err => walkFn root noInfo (some err) s
  | .ok info => walk getFS walkFn (walkFuel (getFS s) root) root info s

/-! ## The OCR service -/

/-- One element of `ParsedResults`. -/
structure ParsedResult where
  TextOrientation : String
  FileParseExitCode : Int
  ParsedText : String
  ErrorMessage : String
  ErrorDetails : String
deriving DecidableEq, Repr

/-- The type `OCRResponse` of `main.go` (the word overlay is left out, the program never reads
it). -/
structure OCRResponse where
  OCRExitCode : Int
  IsErroredOnProcessing : Bool
  ErrorMessage : String
  ProcessingTimeInMilliseconds : String
  ParsedResults : List ParsedResult
  ProcessingError : String
deriving DecidableEq, Repr

/-- The multipart form posted to `https://api.ocr.space/parse/image`. -/
structure OCRRequest where
  apikey : String
  language : String
  OCREngine : String
  isOverlayRequired : String
  fileName : Path
  file : Bytes
deriving DecidableEq, Repr

/-- The remote service together with the HTTP exchange and `json.Unmarshal`: the response
decoded from the reply, or the error of the first step that failed. -/
abbrev OCRService := OCRRequest → Except Err OCRResponse

/-- Lines 45-99 of `main.go`. -/
def ocrSpaceFile (service : OCRService) (fs : FS) (filename : Path) (overlay : Bool)
    (apiKey language ocrEngine : String) : Except Err OCRResponse :=
  match osOpen fs filename with
  | .error err => .error err
  | .ok _ =>
    match readAll fs filename with
    | .error err => .error err
    | .ok content =>
        service
          { apikey := apiKey, language := language, OCREngine := ocrEngine,
            isOverlayRequired := if overlay then "true" else "false",
            fileName := filename, file := content }

/-! ## `processImages` -/

/-- What the run depends on besides the disk: the OCR service, and the value of the
floating-point expression `int(float64(processedImages) / float64(totalImages) * 100)`. The
properties of the traversal hold for every such pair; `floatProgress` below evaluates the
expression. -/
structure Env where
  service : OCRService
  progress : Nat → Nat → Int

/-- Index of the highest set bit of `n`, found in at most `fuel` halvings. -/
def log2Floor : Nat → Nat → Nat
  | 0, _ => 0
  | fuel + 1, n => if n < 2 then 0 else log2Floor fuel (n / 2) + 1

/-- Rounding of the positive fraction `n / d` to the nearest binary64 value, ties to even (the
rounding of every IEEE 754 operation of Go's `float64`, away from overflow and underflow). The
value is returned as a fraction again: with `2 ^ e ≤ n / d < 2 ^ (e + 1)`, the 53-bit
significand is `n / d * 2 ^ (52 - e)` rounded to an integer. -/
def roundFloat64 (n d : Nat) : Nat × Nat :=
  let a := log2Floor n n
  let b := log2Floor d d
  let e : Int := if d * 2 ^ a ≤ n * 2 ^ b then (a : Int) - b else (a : Int) - b - 1
  let s : Int := 52 - e
  let num := n * 2 ^ s.toNat
  let den := d * 2 ^ (-s).toNat
  let q := num / den
  let r := num % den
  let m := if den < 2 * r then q + 1 else if 2 * r = den then q + q % 2 else q
  (m * 2 ^ (-s).toNat, 2 ^ s.toNat)

/-- The expression `int(float64(processedImages) / float64(totalImages) * 100)` of line 206
and 207, for counters in the range of Go's `int`: two conversions, a division and a
multiplication, each rounded to binary64, then truncation. When `totalImages` is 0 the
quotient is infinite or not a number, and when the product is `2 ^ 63` or more it does not fit
an `int`: the Go specification leaves the converted value to the implementation, and the
value taken here is the one of amd64. -/
def floatProgress (processedImages totalImages : Nat) : Int :=
  if totalImages = 0 then -9223372036854775808
  else if processedImages = 0 then 0
  else
    let p := roundFloat64 processedImages 1
    let t := roundFloat64 totalImages 1
    let q := roundFloat64 (p.1 * t.2) (p.2 * t.1)
    let progress := roundFloat64 (q.1 * 100) q.2
    if 9223372036854775808 ≤ progress.1 / progress.2 then -9223372036854775808
    else ((progress.1 / progress.2 : Nat) : Int)

/-- The calls of `processImages` that act on the world, in the order they are made. An
`Option Err` is the `error` the call returned. -/
inductive Event where
  | ocr (path : Path) (err : Option Err)
  | mkdirAll (path : Path) (err : Option Err)
  | copy (src dst : Path) (err : Option Err)
  | setValue (v : Int)
  | close
deriving DecidableEq, Repr

/-- State of the count pass: the disk and the variable `totalImages`. -/
structure CountState where
  fs : FS
  totalImages : Nat

/-- State of the process pass: the disk, the variable `processedImages`, and the calls made
so far. -/
structure ProcState where
  fs : FS
  processedImages : Nat
  events : List Event

/-- Callback of the first `filepath.Walk` (lines 167-175). -/
def countFn : WalkFunc CountState := fun _path info err s =>
  match err with
  | some e => (s, some e)
  | none =>
      if !info.isDir && Ext info.name == ".jpg" then
        ({ s with totalImages := s.totalImages + 1 }, none)
      else (s, none)

/-- Lines 191-196: the output folder is created when `os.Stat` reports that it does not
exist. -/
def ensureFolder (outputFolder : Path) (s : ProcState) : ProcState × Option Err :=
  match Lstat s.fs outputFolder with
  | .ok _ => (s, none)
  | .error err =>
      if IsNotExist err then
        match s.fs.mkdirAll outputFolder with
        | .error e =>
            ({ s with events := s.events ++ [.mkdirAll outputFolder (some e)] }, some e)
        | .ok fs1 =>
            ({ s with fs := fs1, events := s.events ++ [.mkdirAll outputFolder none] }, none)
      else (s, none)

/-- Lines 205-211: the counter, the progress bar and the window. -/
def finishFile (env : Env) (totalImages : Nat) (s : ProcState) : ProcState :=
  let processedImages := s.processedImages + 1
  let progress := env.progress processedImages totalImages
  let s1 : ProcState :=
    { s with processedImages := processedImages, events := s.events ++ [.setValue progress] }
  if processedImages = totalImages then { s1 with events := s1.events ++ [.close] } else s1

/-- Callback of the second `filepath.Walk` (lines 178-214). -/
def processFn (env : Env) (outputFolder : Path) (totalImages : Nat) : WalkFunc ProcState :=
  fun path info err s =>
  match err with
  | some e => (s, some e)
  | none =>
      if !info.isDir && Ext info.name == ".jpg" then
        match ocrSpaceFile env.service s.fs path false "K81163354788957" "pol" "2" with
        | .error e => ({ s with events := s.events ++ [.ocr path (some e)] }, some e)
        | .ok ocrResponse =>
            let s1 : ProcState := { s with events := s.events ++ [.ocr path none] }
            match ocrResponse.ParsedResults with
            | [] => (finishFile env totalImages s1, none)
            | first :: _ =>
                let timePattern := extractTimePattern first.ParsedText
                match ensureFolder outputFolder s1 with
                | (s2, some e) => (s2, some e)
                | (s2, none) =>
                    let newFileName := Join outputFolder (timePattern ++ ".jpg")
                    match copyFile s2.fs path newFileName with
                    | (fs3, some e) =>
                        ({ s2 with fs := fs3,
                                   events := s2.events ++ [.copy path newFileName (some e)] },
                          some e)
                    | (fs3, none) =>
                        (finishFile env totalImages
                          { s2 with fs := fs3,
                                    events := s2.events ++ [.copy path newFileName none] },
                          none)
      else (s, none)

/-- The first traversal of `processImages`: the final `totalImages` and the value returned by
`filepath.Walk`. -/
def countPass (inputFolder : Path) (fs : FS) : Nat × Option Err :=
  let r := Walk CountState.fs inputFolder countFn ⟨fs, 0⟩
  (r.1.totalImages, r.2)

/-- The second traversal of `processImages` together with the value `filepath.Walk`
returns. -/
def processPass (env : Env) (inputFolder : Path) (fs : FS) : ProcState × Option Err :=
  let outputFolder := Join inputFolder "Fotos Renomeadas"
  let totalImages := (countPass inputFolder fs).1
  Walk ProcState.fs inputFolder (processFn env outputFolder totalImages) ⟨fs, 0, []⟩

/-- Lines 163-215 of `main.go`. The function has no result: the values of both
`filepath.Walk` calls are dropped, and what remains of the call is the disk, the counter and
the calls made. -/
def processImages (env : Env) (inputFolder : Path) (fs : FS) : ProcState :=
  (processPass env inputFolder fs).1

/-- What the caller of `processImages` and the user can see after the call: the disk, the
values given to the progress bar and the calls of `mainWindow.Close`. -/
def visible (s : ProcState) : FS × List Event :=
  (s.fs, s.events.filter fun e =>
    match e with
    | .setValue _ => true
    | .close => true
    | _ => false)

/-! ### The wording of the specification of the traversals -/

/-- The name ends in `.jpg`, letter case included: its extension is exactly `.jpg`. -/
def hasJpgExtension (name : String) : Bool :=
  name.data.reverse.take 4 == ['g', 'p', 'j', '.']

/-- Number of non-directory entries of a tree whose extension is `.jpg`; `name` is the name
of the tree's root. -/
def jpgCount (name : String) : Node → Nat
  | .file _ => if hasJpgExtension name then 1 else 0
  | .dir es => jpgCountList es
where
  /-- The same, added over the entries of a directory. -/
  jpgCountList : List (String × Node) → Nat
  | [] => 0
  | (n, c) :: rest => jpgCount n c + jpgCountList rest

/-- Number of non-directory entries of a tree with any other extension. -/
def otherCount (name : String) : Node → Nat
  | .file _ => if hasJpgExtension name then 0 else 1
  | .dir es => otherCountList es
where
  /-- The same, added over the entries of a directory. -/
  otherCountList : List (String × Node) → Nat
  | [] => 0
  | (n, c) :: rest => otherCount n c + otherCountList rest

/-- No two entries of a directory have the same name, at every level of the tree. -/
def Node.WF : Node → Prop
  | .file _ => True
  | .dir es => (es.map Prod.fst).Nodup ∧ wfList es
where
  /-- Every entry is well formed. -/
  wfList : List (String × Node) → Prop
  | [] => True
  | (_, c) :: rest => c.WF ∧ wfList rest

/-! ### Relations used to state the invariants of the traversal -/

/-- Everything that exists on disk `a` exists on disk `b`, as the same kind of object. -/
def Extends (a b : FS) : Prop := ∀ p info, Lstat a p = .ok info → Lstat b p = .ok info

/-- What a traversal step `r`, started in state `s`, is shown to satisfy: `Step` relates the
two states; if no error is returned the invariant holds again, otherwise `Stop` describes the
state and the error. -/
def Outcome {σ : Type} (Inv : σ → Prop) (Step : σ → σ → Prop) (Stop : σ → Err → Prop)
    (s : σ) (r : σ × Option Err) : Prop :=
  Step s r.1 ∧
    match r.2 with
    | none => Inv r.1
    | some e => Stop r.1 e

/-- Number of `.jpg` files under the entry called `name` of a directory; 0 if there is no
such entry. -/
def entryCount (es : List (String × Node)) (name : String) : Nat :=
  match es.lookup name with
  | some c => jpgCount name c
  | none => 0

/-- The `error` a call returned; `none` for the calls that return nothing. -/
def Event.err : Event → Option Err
  | .ocr _ e => e
  | .mkdirAll _ e => e
  | .copy _ _ e => e
  | .setValue _ => none
  | .close => none

def Event.isOcr : Event → Bool
  | .ocr _ _ => true
  | _ => false

def Event.isCopy : Event → Bool
  | .copy _ _ _ => true
  | _ => false

def Event.isSetValue : Event → Bool
  | .setValue _ => true
  | _ => false

/-- Calls made for one file between the OCR call and the counter: they succeeded and are
neither an OCR call nor a call on the progress bar or the window. -/
def Quiet (mid : List Event) : Prop :=
  ∀ ev ∈ mid, ev.err = none ∧ ev.isOcr = false ∧ ev.isSetValue = false ∧ ev ≠ .close

/-- Invariant of the process pass between two files. `fs0` is the disk at the start, `H`
the depth bound, `total` the value of `totalImages`. -/
structure ProcInv (env : Env) (fs0 : FS) (H total : Nat) (s : ProcState) : Prop where
  height : s.fs.height ≤ H
  ext : Extends fs0 s.fs
  allOk : ∀ ev ∈ s.events, ev.err = none
  ocrCount : s.events.countP Event.isOcr = s.processedImages
  setCount : s.events.countP Event.isSetValue = s.processedImages
  closeBefore : s.processedImages < total ∨ total = 0 → Event.close ∉ s.events
  closeAfter : 0 < total → total ≤ s.processedImages →
    ∃ pre post, s.events = pre ++ [.setValue (env.progress total total), .close] ++ post ∧
      Event.close ∉ pre ∧ Event.close ∉ post ∧ pre.countP Event.isSetValue + 1 = total

/-- Relation between the states before and after any part of the process pass. -/
def ProcStep (s s' : ProcState) : Prop :=
  Extends s.fs s'.fs ∧ s.processedImages ≤ s'.processedImages

/-- State in which the process pass stops with error `e`: the invariant held before the
file, and the last call made is the failed OCR call or the failed copy. -/
def ProcStop (env : Env) (fs0 : FS) (H total : Nat) (s' : ProcState) (e : Err) : Prop :=
  ∃ s0, ProcInv env fs0 H total s0 ∧ s'.processedImages = s0.processedImages ∧
    ((∃ p, s'.events = s0.events ++ [.ocr p (some e)]) ∨
     (∃ p dst mid, s'.events = s0.events ++ .ocr p none :: mid ++ [.copy p dst (some e)] ∧
        Quiet mid))

/-- The path `processImages` copies a file to when the first parsed text of its OCR result is
`text` (lines 164 and 198). -/
def destination (inputFolder : Path) (text : String) : Path :=
  Join (Join inputFolder "Fotos Renomeadas") (extractTimePattern text ++ ".jpg")

/-- The callback of the process pass as `processImages` calls it for an entry that
`filepath.Walk` could stat. -/
def visitFile (env : Env) (inputFolder : Path) (total : Nat) (path : Path) (info : FileInfo)
    (s : ProcState) : ProcState × Option Err :=
  processFn env (Join inputFolder "Fotos Renomeadas") total path info none s

/-- The state of the callback just before `copyFile`: the OCR call is made and lines 191-196
are done. -/
def beforeCopy (inputFolder : Path) (path : Path) (s : ProcState) : ProcState :=
  (ensureFolder (Join inputFolder "Fotos Renomeadas")
    { s with events := s.events ++ [.ocr path none] }).1

/-! ## Example data -/

/-- A response with the given `ParsedResults`. -/
def exResponse (results : List ParsedResult) : OCRResponse :=
  { OCRExitCode := 1, IsErroredOnProcessing := false, ErrorMessage := "",
    ProcessingTimeInMilliseconds := "0", ParsedResults := results, ProcessingError := "" }

/-- A parsed result with the given text. -/
def exParsed (text : String) : ParsedResult :=
  { TextOrientation := "0", FileParseExitCode := 1, ParsedText := text, ErrorMessage := "",
    ErrorDetails := "" }

/-- The folder `pics`: three `.jpg` files (one in a subfolder) and three other files. -/
def exTree : Node :=
  .dir [("b.jpg", .file [2]), ("a.jpg", .file [1]), ("c.JPG", .file [3]),
        ("d.jpeg", .file [4]), ("e.txt", .file [5]), ("sub", .dir [("f.jpg", .file [6])])]

/-- A disk holding the folder `pics`. -/
def exDisk : FS := .dir [("pics", exTree)]

/-- A service that reads a time on `a.jpg`, nothing at all on `b.jpg`, and a text without a
time on every other file. -/
def exService : OCRService := fun req =>
  if req.fileName = ["pics", "a.jpg"] then
    .ok (exResponse [exParsed "Photo taken at 14:23:05 on site"])
  else if req.fileName = ["pics", "b.jpg"] then .ok (exResponse [])
  else .ok (exResponse [exParsed "no time here"])

/-- The same service, with the exchange for `b.jpg` failing. -/
def exServiceFailing : OCRService := fun req =>
  if req.fileName = ["pics", "b.jpg"] then .error .network else exService req

def exEnv : Env := ⟨exService, floatProgress⟩

def exEnvFailing : Env := ⟨exServiceFailing, floatProgress⟩

/-- Every exchange fails in the network. -/
def exEnvNetwork : Env := ⟨fun _ => .error .network, floatProgress⟩

/-- Every reply fails to decode. -/
def exEnvFormat : Env := ⟨fun _ => .error .responseFormat, floatProgress⟩

/-- The calls of the run with `exEnvFailing` that come before the failed OCR call. -/
def exCallsBefore : List Event :=
  [.ocr ["pics", "a.jpg"] none, .mkdirAll ["pics", "Fotos Renomeadas"] none,
   .copy ["pics", "a.jpg"] ["pics", "Fotos Renomeadas", "14.23.05.jpg"] none, .setValue 33]

/-- The disk when only a file `.jpg` written by an earlier run is left in the folder. -/
def exDiskDotJpg : FS :=
  .dir [("pics", .dir [("Fotos Renomeadas", .dir [(".jpg", .file [9, 9])])])]

/-- The disk when only the renamed copy of an earlier run is left in the folder. -/
def exDiskRenamed : FS :=
  .dir [("pics", .dir [("Fotos Renomeadas", .dir [("14.23.05.jpg", .file [1])])])]

/-- A service that reads the same time on every file. -/
def exEnvTime : Env :=
  ⟨fun _ => .ok (exResponse [exParsed "Photo taken at 14:23:05 on site"]), floatProgress⟩

/-! ## Facts about `extractTimePattern` -/

theorem isDigit_isWordChar {c : Char} (h : isDigit c = true) : isWordChar c = true := by
  simp only [isDigit, Bool.and_eq_true, decide_eq_true_eq] at h
  simp [isWordChar, h.1, h.2]

theorem matchAt_timeRegexp (prev : Option Char) (r : List Char) :
    matchAt timeRegexp prev r = if timeMatchHere prev r then some (r.take 8) else none := by
  rcases r with _ | ⟨a, _ | ⟨b, _ | ⟨c, _ | ⟨d, _ | ⟨e, _ | ⟨f, _ | ⟨g, _ | ⟨h, r⟩⟩⟩⟩⟩⟩⟩⟩ <;>
    simp [matchAt, timeRegexp, timeMatchHere, timeShapedAt]
  have hr : r.head? = r[0]? := by cases r <;> simp
  rw [hr]
  by_cases h0 : isWordRune prev = isWordRune (some a)
  · simp [h0]
  simp only [h0, if_true, if_false, not_true, not_false_eq_true, true_and, and_true]
  by_cases h1 : isDigit a = true
  swap
  · simp [h1]
  simp only [h1, if_true, if_false, not_true, not_false_eq_true, true_and, and_true]
  by_cases h2 : isDigit b = true
  swap
  · simp [h2]
  simp only [h2, if_true, if_false, not_true, not_false_eq_true, true_and, and_true]
  by_cases h3 : c = ':'
  swap
  · simp [h3]
  simp only [h3, if_true, if_false, not_true, not_false_eq_true, true_and, and_true]
  by_cases h4 : isDigit d = true
  swap
  · simp [h4]
  simp only [h4, if_true, if_false, not_true, not_false_eq_true, true_and, and_true]
  by_cases h5 : isDigit e = true
  swap
  · simp [h5]
  simp only [h5, if_true, if_false, not_true, not_false_eq_true, true_and, and_true]
  by_cases h6 : f = ':'
  swap
  · simp [h6]
  simp only [h6, if_true, if_false, not_true, not_false_eq_true, true_and, and_true]
  by_cases h7 : isDigit g = true
  swap
  · simp [h7]
  simp only [h7, if_true, if_false, not_true, not_false_eq_true, true_and, and_true]
  by_cases h8 : isDigit h = true
  swap
  · simp [h8]
  simp only [h8, if_true, if_false, not_true, not_false_eq_true, true_and, and_true]
  by_cases h9 : isWordRune (some h) = isWordRune r[0]?
  · simp [h9]
  simp [*]


theorem findFrom_of_matchAt {prog : List Inst} {prev : Option Char} {r m : List Char}
    (h : matchAt prog prev r = some m) : findFrom prog prev r = m := by
  cases r <;> simp [findFrom, h]

theorem findFrom_cons_of_matchAt_none {prog : List Inst} {prev : Option Char} {c : Char}
    {cs : List Char} (h : matchAt prog prev (c :: cs) = none) :
    findFrom prog prev (c :: cs) = findFrom prog (some c) cs := by
  simp [findFrom, h]

theorem findFrom_nil_of_matchAt_none {prog : List Inst} {prev : Option Char}
    (h : matchAt prog prev [] = none) : findFrom prog prev [] = [] := by
  simp [findFrom, h]

theorem timeMatchHere_drop (t : List Char) (i : Nat) :
    timeMatchHere (runeBefore t i) (t.drop i) = timeMatchAt t i := by
  simp [timeMatchHere, timeMatchAt, isWordBoundary, timeShapedAt, runeBefore,
    List.getElem?_drop]

theorem matchAt_drop (t : List Char) (i : Nat) :
    matchAt timeRegexp (runeBefore t i) (t.drop i) =
      if timeMatchAt t i then some ((t.drop i).take 8) else none := by
  rw [matchAt_timeRegexp, timeMatchHere_drop]

theorem lt_length_of_timeMatchAt {t : List Char} {i : Nat} (h : timeMatchAt t i = true) :
    i < t.length := by
  by_contra hlt
  have : t[i]? = none := List.getElem?_eq_none (by omega)
  simp [timeMatchAt, timeShapedAt, this] at h

theorem findFrom_leftmost (t : List Char) (i : Nat) (hi : timeMatchAt t i = true) :
    ∀ n k, k + n = i → (∀ j, k ≤ j → j < i → timeMatchAt t j = false) →
      findFrom timeRegexp (runeBefore t k) (t.drop k) = (t.drop i).take 8 := by
  intro n
  induction n with
  | zero =>
    intro k hk _
    have : k = i := by omega
    subst this
    exact findFrom_of_matchAt (by rw [matchAt_drop, hi]; rfl)
  | succ n ih =>
    intro k hk hno
    have hlen := lt_length_of_timeMatchAt hi
    have hk' : k < t.length := by omega
    have hnone : matchAt timeRegexp (runeBefore t k) (t.drop k) = none := by
      rw [matchAt_drop, hno k (le_refl _) (by omega)]; rfl
    rw [List.drop_eq_getElem_cons hk'] at hnone ⊢
    rw [findFrom_cons_of_matchAt_none hnone]
    have hb : runeBefore t (k + 1) = some t[k] := by
      simp [runeBefore, List.getElem?_eq_getElem hk']
    rw [← hb]
    exact ih (k + 1) (by omega) (fun j h1 h2 => hno j (by omega) h2)

theorem findFrom_none (t : List Char) :
    ∀ n k, t.length ≤ k + n → (∀ j, k ≤ j → timeMatchAt t j = false) →
      findFrom timeRegexp (runeBefore t k) (t.drop k) = [] := by
  intro n
  induction n with
  | zero =>
    intro k hk hno
    have hnone : matchAt timeRegexp (runeBefore t k) (t.drop k) = none := by
      rw [matchAt_drop, hno k (le_refl _)]; rfl
    rw [List.drop_of_length_le (by omega)] at hnone ⊢
    exact findFrom_nil_of_matchAt_none hnone
  | succ n ih =>
    intro k hk hno
    have hnone : matchAt timeRegexp (runeBefore t k) (t.drop k) = none := by
      rw [matchAt_drop, hno k (le_refl _)]; rfl
    by_cases hk' : k < t.length
    · rw [List.drop_eq_getElem_cons hk'] at hnone ⊢
      rw [findFrom_cons_of_matchAt_none hnone]
      have hb : runeBefore t (k + 1) = some t[k] := by
        simp [runeBefore, List.getElem?_eq_getElem hk']
      rw [← hb]
      exact ih (k + 1) (by omega) (fun j h1 => hno j (by omega))
    · rw [List.drop_of_length_le (by omega)] at hnone ⊢
      exact findFrom_nil_of_matchAt_none hnone

theorem extractTimePattern_eq_of_leftmost (text : String) (i : Nat)
    (hi : timeMatchAt text.data i = true)
    (hleft : ∀ j, j < i → timeMatchAt text.data j = false) :
    extractTimePattern text = periodsAt text.data i := by
  have h := findFrom_leftmost text.data i hi i 0 (by omega) (fun j _ hj => hleft j hj)
  simp only [runeBefore, List.drop_zero] at h
  simp [extractTimePattern, FindString, ReplaceAll, periodsAt, h]

theorem extractTimePattern_eq_empty (text : String)
    (hno : ∀ j, timeMatchAt text.data j = false) : extractTimePattern text = "" := by
  have h := findFrom_none text.data text.data.length 0 (by omega) (fun j _ => hno j)
  simp only [runeBefore, List.drop_zero] at h
  simp [extractTimePattern, FindString, ReplaceAll, h]


theorem timeShapedAt_drop (t : List Char) (i : Nat) :
    timeShapedAt (t.drop i) 0 = timeShapedAt t i := by
  simp [timeShapedAt, List.getElem?_drop]

theorem isDigit_ne_colon {c : Char} (h : isDigit c = true) : c ≠ ':' := by
  rintro rfl
  revert h
  decide

theorem periods_of_shape (r : List Char) (h : timeShapedAt r 0 = true) :
    ∃ a b c d e f : Char, isDigit a = true ∧ isDigit b = true ∧ isDigit c = true ∧
      isDigit d = true ∧ isDigit e = true ∧ isDigit f = true ∧
      ((r.take 8).map (fun c => if c = ':' then '.' else c)) = [a, b, '.', c, d, '.', e, f] := by
  rcases r with _ | ⟨a, _ | ⟨b, _ | ⟨c, _ | ⟨d, _ | ⟨e, _ | ⟨f, _ | ⟨g, _ | ⟨k, r⟩⟩⟩⟩⟩⟩⟩⟩ <;>
    simp [timeShapedAt] at h
  obtain ⟨⟨⟨⟨⟨⟨⟨ha, hb⟩, hc⟩, hd⟩, he⟩, hf⟩, hg⟩, hk⟩ := h
  subst hc hf
  refine ⟨a, b, d, e, g, k, ha, hb, hd, he, hg, hk, ?_⟩
  simp [isDigit_ne_colon ha, isDigit_ne_colon hb, isDigit_ne_colon hd, isDigit_ne_colon he,
    isDigit_ne_colon hg, isDigit_ne_colon hk]

theorem timeShapedAt_of_timeMatchAt {t : List Char} {i : Nat} (h : timeMatchAt t i = true) :
    timeShapedAt t i = true := by
  simp only [timeMatchAt, Bool.and_eq_true] at h
  exact h.1.2

theorem timeShapedAt_of_length_le {t : List Char} {i : Nat} (h : t.length ≤ i) :
    timeShapedAt t i = false := by
  have : t[i]? = none := List.getElem?_eq_none h
  simp [timeShapedAt, this]

theorem timeShapedAt_all_of_bounded {t : List Char}
    (h : ∀ i, i < t.length → timeShapedAt t i = false) (i : Nat) : timeShapedAt t i = false := by
  by_cases hi : i < t.length
  · exact h i hi
  · exact timeShapedAt_of_length_le (by omega)

/-- C1: when the text has a substring "two ASCII digits, colon, two digits, colon, two digits"
bounded by word boundaries, `extractTimePattern` returns the leftmost such substring, and only
it, with both colons written as periods. -/
theorem extractTimePattern_leftmost (text : String)
    (h : ∃ i, timeMatchAt text.data i = true) :
    ∃ i, timeMatchAt text.data i = true ∧ (∀ j, j < i → timeMatchAt text.data j = false) ∧
      extractTimePattern text = periodsAt text.data i := by
  classical
  refine ⟨Nat.find h, Nat.find_spec h, fun j hj => ?_, ?_⟩
  · simpa using Nat.find_min h hj
  · exact extractTimePattern_eq_of_leftmost text _ (Nat.find_spec h)
      (fun j hj => by simpa using Nat.find_min h hj)

theorem extractTimePattern_leftmost_witness :
    ((∃ i, timeMatchAt "Photo taken at 14:23:05 on site".data i = true) ∧
      ∃ i, timeMatchAt "Photo taken at 14:23:05 on site".data i = true ∧
        (∀ j, j < i → timeMatchAt "Photo taken at 14:23:05 on site".data j = false) ∧
        extractTimePattern "Photo taken at 14:23:05 on site" =
          periodsAt "Photo taken at 14:23:05 on site".data i) ∧
    extractTimePattern "Photo taken at 14:23:05 on site" = "14.23.05" ∧
    extractTimePattern "09:00:00 ... 23:59:59" = "09.00.00" :=
  ⟨⟨⟨15, by decide⟩, extractTimePattern_leftmost _ ⟨15, by decide⟩⟩, by decide, by decide⟩

/-- C2: a text with no substring "two digits, colon, two digits, colon, two digits" makes
`extractTimePattern` return the empty string. -/
theorem extractTimePattern_no_shape (text : String)
    (h : ∀ i, timeShapedAt text.data i = false) : extractTimePattern text = "" := by
  apply extractTimePattern_eq_empty
  intro j
  simp [timeMatchAt, h j]

theorem extractTimePattern_no_shape_witness :
    (∀ i, timeShapedAt "taken 14:23 on site".data i = false) ∧
      extractTimePattern "taken 14:23 on site" = "" :=
  ⟨timeShapedAt_all_of_bounded (by decide),
    extractTimePattern_no_shape _ (timeShapedAt_all_of_bounded (by decide))⟩

/-- C3: the result of `extractTimePattern` is the empty string or exactly eight runes: digit,
digit, period, digit, digit, period, digit, digit. -/
theorem extractTimePattern_shape (text : String) :
    extractTimePattern text = "" ∨
      ∃ a b c d e f : Char, isDigit a = true ∧ isDigit b = true ∧ isDigit c = true ∧
        isDigit d = true ∧ isDigit e = true ∧ isDigit f = true ∧
        extractTimePattern text = ⟨[a, b, '.', c, d, '.', e, f]⟩ := by
  by_cases h : ∃ i, timeMatchAt text.data i = true
  · right
    classical
    have hm := Nat.find_spec h
    have heq := extractTimePattern_eq_of_leftmost text _ hm
      (fun j hj => by simpa using Nat.find_min h hj)
    have hs := timeShapedAt_of_timeMatchAt hm
    rw [← timeShapedAt_drop] at hs
    obtain ⟨a, b, c, d, e, f, ha, hb, hc, hd, he, hf, hl⟩ := periods_of_shape _ hs
    exact ⟨a, b, c, d, e, f, ha, hb, hc, hd, he, hf, by rw [heq, periodsAt, hl]⟩
  · left
    apply extractTimePattern_eq_empty
    intro j
    by_contra hj
    exact h ⟨j, by simpa using hj⟩

/-! ## Facts about the file system -/

theorem lookup_setEntry_self (k : String) (v : Node) (es : List (String × Node)) :
    (setEntry k v es).lookup k = some v := by
  induction es with
  | nil => simp [setEntry, List.lookup]
  | cons e es ih =>
    obtain ⟨k', c⟩ := e
    by_cases h : k' = k
    · subst h
      simp [setEntry, List.lookup]
    · have h' : (k == k') = false := by simpa using fun h'' => h h''.symm
      simp [setEntry, h, List.lookup, h', ih]

theorem lookup_setEntry_ne {k k' : String} (v : Node) (es : List (String × Node))
    (hne : k' ≠ k) : (setEntry k v es).lookup k' = es.lookup k' := by
  induction es with
  | nil =>
    have h' : (k' == k) = false := by simpa using hne
    simp [setEntry, List.lookup, h']
  | cons e es ih =>
    obtain ⟨k'', c⟩ := e
    by_cases h : k'' = k
    · subst h
      have h' : (k' == k'') = false := by simpa using hne
      simp [setEntry, List.lookup, h']
    · by_cases h2 : k' = k''
      · subst h2
        simp [setEntry, h, List.lookup]
      · have h' : (k' == k'') = false := by simpa using h2
        simp [setEntry, h, List.lookup, h', ih]

theorem resolve_nil (fs : Node) : fs.resolve [] = .ok fs := by
  cases fs <;> rfl

theorem resolve_file_cons (b : Bytes) (k : String) (p : Path) :
    (Node.file b).resolve (k :: p) = .error .notDir := rfl

theorem resolve_dir_cons (es : List (String × Node)) (k : String) (p : Path) :
    (Node.dir es).resolve (k :: p) =
      match es.lookup k with
      | none => .error .notExist
      | some c => c.resolve p := rfl

theorem resolve_append (fs : Node) (p q : Path) :
    fs.resolve (p ++ q) =
      match fs.resolve p with
      | .ok n => n.resolve q
      | .error e => .error e := by
  induction p generalizing fs with
  | nil => simp [resolve_nil]
  | cons k p ih =>
    cases fs with
    | file b => simp [resolve_file_cons]
    | dir es =>
      simp only [List.cons_append, resolve_dir_cons]
      cases es.lookup k with
      | none => rfl
      | some c => exact ih c

theorem extends_refl (a : FS) : Extends a a := fun _ _ h => h

theorem extends_trans {a b c : FS} (h1 : Extends a b) (h2 : Extends b c) : Extends a c :=
  fun p info h => h2 p info (h1 p info h)

theorem Lstat_eq_ok {fs : FS} {p : Path} {info : FileInfo} :
    Lstat fs p = .ok info ↔ ∃ n, fs.resolve p = .ok n ∧ info = ⟨Base p, n.isDir⟩ := by
  unfold Lstat
  cases h : fs.resolve p with
  | error e => simp
  | ok n => simp [eq_comm]

theorem extends_of_resolve {a b : FS}
    (h : ∀ p n, a.resolve p = .ok n → ∃ n', b.resolve p = .ok n' ∧ n'.isDir = n.isDir) :
    Extends a b := by
  intro p info hl
  obtain ⟨n, hn, rfl⟩ := Lstat_eq_ok.1 hl
  obtain ⟨n', hn', hd⟩ := h p n hn
  exact Lstat_eq_ok.2 ⟨n', hn', by rw [hd]⟩

theorem Extends.resolve {a b : FS} (h : Extends a b) {p : Path} {n : Node}
    (hn : a.resolve p = .ok n) : ∃ n', b.resolve p = .ok n' ∧ n'.isDir = n.isDir := by
  obtain ⟨n', hn', hi⟩ := Lstat_eq_ok.1 (h p _ (Lstat_eq_ok.2 ⟨n, hn, rfl⟩))
  refine ⟨n', hn', ?_⟩
  simpa using (congrArg FileInfo.isDir hi).symm

theorem put_resolve {fs fs' : Node} {q : Path} {b : Bytes} (h : fs.put q b = .ok fs') :
    ∀ p n, fs.resolve p = .ok n → ∃ n', fs'.resolve p = .ok n' ∧ n'.isDir = n.isDir := by
  induction q generalizing fs fs' with
  | nil =>
    cases fs with
    | file c =>
      simp only [Node.put, Except.ok.injEq] at h
      subst h
      intro p n hp
      cases p with
      | nil => simp only [resolve_nil, Except.ok.injEq] at hp ⊢; subst hp; exact ⟨_, rfl, rfl⟩
      | cons k p => simp [resolve_file_cons] at hp
    | dir es => simp [Node.put] at h
  | cons name rest ih =>
    cases fs with
    | file c => simp [Node.put] at h
    | dir es =>
      intro p n hp
      simp only [Node.put] at h
      cases p with
      | nil =>
        simp only [resolve_nil, Except.ok.injEq] at hp
        subst hp
        cases hl : es.lookup name with
        | some c =>
          rw [hl] at h
          cases hc : c.put rest b with
          | error e => simp [hc] at h
          | ok c' =>
            simp only [hc, Except.ok.injEq] at h
            subst h
            exact ⟨_, resolve_nil _, rfl⟩
        | none =>
          rw [hl] at h
          cases rest with
          | nil =>
            simp only [Except.ok.injEq] at h
            subst h
            exact ⟨_, resolve_nil _, rfl⟩
          | cons _ _ => simp at h
      | cons k p =>
        rw [resolve_dir_cons] at hp
        by_cases hk : k = name
        · subst hk
          cases hl : es.lookup k with
          | none => simp [hl] at hp
          | some c =>
            rw [hl] at h hp
            cases hc : c.put rest b with
            | error e => simp [hc] at h
            | ok c' =>
              simp only [hc, Except.ok.injEq] at h
              subst h
              simp only [resolve_dir_cons, lookup_setEntry_self]
              exact ih hc p n hp
        · have hfs' : ∃ v, fs' = .dir (setEntry name v es) := by
            cases hl : es.lookup name with
            | some c =>
              rw [hl] at h
              cases hc : c.put rest b with
              | error e => simp [hc] at h
              | ok c' =>
                simp only [hc, Except.ok.injEq] at h
                exact ⟨c', h.symm⟩
            | none =>
              rw [hl] at h
              cases rest with
              | nil =>
                simp only [Except.ok.injEq] at h
                exact ⟨_, h.symm⟩
              | cons _ _ => simp at h
          obtain ⟨v, rfl⟩ := hfs'
          rw [resolve_dir_cons, lookup_setEntry_ne v es hk]
          exact ⟨n, hp, rfl⟩

theorem put_extends {fs fs' : Node} {q : Path} {b : Bytes} (h : fs.put q b = .ok fs') :
    Extends fs fs' := extends_of_resolve (put_resolve h)

theorem mkdirAll_empty_ok (q : Path) : ∃ n, (Node.dir []).mkdirAll q = .ok n := by
  induction q with
  | nil => exact ⟨_, rfl⟩
  | cons k q ih =>
    obtain ⟨n, hn⟩ := ih
    exact ⟨.dir (setEntry k n []), by simp [Node.mkdirAll, List.lookup, hn]⟩

theorem mkdirAll_dir_cons (es : List (String × Node)) (name : String) (rest : Path) :
    (Node.dir es).mkdirAll (name :: rest) =
      match (match es.lookup name with
        | some c => c.mkdirAll rest
        | none => (Node.dir []).mkdirAll rest) with
      | .ok c' => .ok (.dir (setEntry name c' es))
      | .error e => .error e := rfl

theorem mkdirAll_resolve {fs fs' : Node} {q : Path} (h : fs.mkdirAll q = .ok fs') :
    ∀ p n, fs.resolve p = .ok n → ∃ n', fs'.resolve p = .ok n' ∧ n'.isDir = n.isDir := by
  induction q generalizing fs fs' with
  | nil =>
    cases fs with
    | file c => simp [Node.mkdirAll] at h
    | dir es =>
      simp only [Node.mkdirAll, Except.ok.injEq] at h
      subst h
      exact fun p n hp => ⟨n, hp, rfl⟩
  | cons name rest ih =>
    cases fs with
    | file c => simp [Node.mkdirAll] at h
    | dir es =>
      intro p n hp
      rw [mkdirAll_dir_cons] at h
      cases hl : es.lookup name with
      | none =>
        rw [hl] at h
        obtain ⟨c', hc'⟩ := mkdirAll_empty_ok rest
        simp only [hc', Except.ok.injEq] at h
        subst h
        cases p with
        | nil =>
          simp only [resolve_nil, Except.ok.injEq] at hp
          subst hp
          exact ⟨_, resolve_nil _, rfl⟩
        | cons k p =>
          rw [resolve_dir_cons] at hp
          by_cases hk : k = name
          · subst hk
            simp [hl] at hp
          · rw [resolve_dir_cons, lookup_setEntry_ne c' es hk]
            exact ⟨n, hp, rfl⟩
      | some c =>
        rw [hl] at h
        cases hc : c.mkdirAll rest with
        | error e => simp [hc] at h
        | ok c' =>
          simp only [hc, Except.ok.injEq] at h
          subst h
          cases p with
          | nil =>
            simp only [resolve_nil, Except.ok.injEq] at hp
            subst hp
            exact ⟨_, resolve_nil _, rfl⟩
          | cons k p =>
            rw [resolve_dir_cons] at hp
            by_cases hk : k = name
            · subst hk
              rw [hl] at hp
              simp only [resolve_dir_cons, lookup_setEntry_self]
              exact ih hc p n hp
            · rw [resolve_dir_cons, lookup_setEntry_ne c' es hk]
              exact ⟨n, hp, rfl⟩

theorem mkdirAll_extends {fs fs' : Node} {q : Path} (h : fs.mkdirAll q = .ok fs') :
    Extends fs fs' := extends_of_resolve (mkdirAll_resolve h)

/-- Go's `os.MkdirAll` cannot fail on a path that `os.Stat` reported as not existing. -/
theorem mkdirAll_ok_of_notExist {fs : Node} {q : Path} (h : fs.resolve q = .error .notExist) :
    ∃ fs', fs.mkdirAll q = .ok fs' := by
  induction q generalizing fs with
  | nil => simp [resolve_nil] at h
  | cons name rest ih =>
    cases fs with
    | file c => simp [resolve_file_cons] at h
    | dir es =>
      rw [resolve_dir_cons] at h
      rw [mkdirAll_dir_cons]
      cases hl : es.lookup name with
      | none =>
        obtain ⟨c', hc'⟩ := mkdirAll_empty_ok rest
        exact ⟨.dir (setEntry name c' es), by simp [hc']⟩
      | some c =>
        rw [hl] at h
        obtain ⟨c', hc'⟩ := ih h
        exact ⟨.dir (setEntry name c' es), by simp [hc']⟩

theorem height_file (b : Bytes) : (Node.file b).height = 1 := rfl

theorem height_dir (es : List (String × Node)) :
    (Node.dir es).height = 1 + Node.height.heightList es := rfl

theorem heightList_cons (k : String) (c : Node) (es : List (String × Node)) :
    Node.height.heightList ((k, c) :: es) = max c.height (Node.height.heightList es) := rfl

theorem height_pos (n : Node) : 1 ≤ n.height := by
  cases n with
  | file b => simp [height_file]
  | dir es => simp [height_dir]

theorem height_le_of_lookup {es : List (String × Node)} {k : String} {c : Node}
    (h : es.lookup k = some c) : c.height ≤ Node.height.heightList es := by
  induction es with
  | nil => simp [List.lookup] at h
  | cons e es ih =>
    obtain ⟨k', c'⟩ := e
    rw [heightList_cons]
    simp only [List.lookup] at h
    split at h
    · simp only [Option.some.injEq] at h
      subst h
      exact le_max_left _ _
    · exact le_trans (ih h) (le_max_right _ _)

theorem heightList_setEntry_le (k : String) (v : Node) (es : List (String × Node)) :
    Node.height.heightList (setEntry k v es) ≤ max (Node.height.heightList es) v.height := by
  induction es with
  | nil => simp [setEntry, heightList_cons, Node.height.heightList]
  | cons e es ih =>
    obtain ⟨k', c'⟩ := e
    by_cases h : k' = k
    · simp only [setEntry, h, if_true, heightList_cons]
      omega
    · simp only [setEntry, h, if_false, heightList_cons]
      omega

theorem height_resolve {fs n : Node} {p : Path} (h : fs.resolve p = .ok n) :
    p.length + n.height ≤ fs.height := by
  induction p generalizing fs with
  | nil =>
    simp only [resolve_nil, Except.ok.injEq] at h
    subst h
    simp
  | cons k p ih =>
    cases fs with
    | file b => simp [resolve_file_cons] at h
    | dir es =>
      rw [resolve_dir_cons] at h
      cases hl : es.lookup k with
      | none => simp [hl] at h
      | some c =>
        rw [hl] at h
        have h1 := ih h
        have h2 := height_le_of_lookup hl
        simp only [List.length_cons, height_dir]
        omega

theorem height_put {fs fs' : Node} {q : Path} {b : Bytes} (h : fs.put q b = .ok fs') :
    fs'.height ≤ max fs.height (q.length + 1) := by
  induction q generalizing fs fs' with
  | nil =>
    cases fs with
    | file c =>
      simp only [Node.put, Except.ok.injEq] at h
      subst h
      simp [height_file]
    | dir es => simp [Node.put] at h
  | cons name rest ih =>
    cases fs with
    | file c => simp [Node.put] at h
    | dir es =>
      simp only [Node.put] at h
      cases hl : es.lookup name with
      | some c =>
        rw [hl] at h
        cases hc : c.put rest b with
        | error e => simp [hc] at h
        | ok c' =>
          simp only [hc, Except.ok.injEq] at h
          subst h
          have h1 := ih hc
          have h2 := height_le_of_lookup hl
          have h3 := heightList_setEntry_le name c' es
          simp only [height_dir, List.length_cons]
          omega
      | none =>
        rw [hl] at h
        cases rest with
        | nil =>
          simp only [Except.ok.injEq] at h
          subst h
          have h3 := heightList_setEntry_le name (.file b) es
          simp only [height_dir, List.length_cons, height_file] at h3 ⊢
          omega
        | cons _ _ => simp at h

theorem height_mkdirAll_empty (q : Path) {n : Node} (h : (Node.dir []).mkdirAll q = .ok n) :
    n.height ≤ q.length + 1 := by
  induction q generalizing n with
  | nil =>
    simp only [Node.mkdirAll, Except.ok.injEq] at h
    subst h
    simp [height_dir, Node.height.heightList]
  | cons k q ih =>
    rw [mkdirAll_dir_cons] at h
    simp only [List.lookup] at h
    cases hc : (Node.dir []).mkdirAll q with
    | error e => simp [hc] at h
    | ok c' =>
      simp only [hc, Except.ok.injEq] at h
      subst h
      have := ih hc
      simp only [height_dir, setEntry, heightList_cons, Node.height.heightList,
        List.length_cons]
      omega

theorem height_mkdirAll {fs fs' : Node} {q : Path} (h : fs.mkdirAll q = .ok fs') :
    fs'.height ≤ max fs.height (q.length + 1) := by
  induction q generalizing fs fs' with
  | nil =>
    cases fs with
    | file c => simp [Node.mkdirAll] at h
    | dir es =>
      simp only [Node.mkdirAll, Except.ok.injEq] at h
      subst h
      simp
  | cons name rest ih =>
    cases fs with
    | file c => simp [Node.mkdirAll] at h
    | dir es =>
      rw [mkdirAll_dir_cons] at h
      cases hl : es.lookup name with
      | none =>
        rw [hl] at h
        cases hc : (Node.dir []).mkdirAll rest with
        | error e => simp [hc] at h
        | ok c' =>
          simp only [hc, Except.ok.injEq] at h
          subst h
          have h1 := height_mkdirAll_empty rest hc
          have h3 := heightList_setEntry_le name c' es
          simp only [height_dir, List.length_cons]
          omega
      | some c =>
        rw [hl] at h
        cases hc : c.mkdirAll rest with
        | error e => simp [hc] at h
        | ok c' =>
          simp only [hc, Except.ok.injEq] at h
          subst h
          have h1 := ih hc
          have h2 := height_le_of_lookup hl
          have h3 := heightList_setEntry_le name c' es
          simp only [height_dir, List.length_cons]
          omega

/-! ## Facts about `filepath.Walk` -/

theorem lookup_isSome_of_mem {es : List (String × Node)} {k : String}
    (h : k ∈ es.map Prod.fst) : ∃ c, es.lookup k = some c := by
  induction es with
  | nil => simp at h
  | cons e es ih =>
    obtain ⟨k', c'⟩ := e
    by_cases hk : k = k'
    · subst hk
      exact ⟨c', by simp [List.lookup]⟩
    · have hb : (k == k') = false := by simpa using hk
      simp only [List.map_cons, List.mem_cons, hk, false_or] at h
      obtain ⟨c, hc⟩ := ih h
      exact ⟨c, by simp [List.lookup, hb, hc]⟩

theorem mem_of_lookup {es : List (String × Node)} {k : String} {c : Node}
    (h : es.lookup k = some c) : k ∈ es.map Prod.fst := by
  induction es with
  | nil => simp [List.lookup] at h
  | cons e es ih =>
    obtain ⟨k', c'⟩ := e
    simp only [List.lookup] at h
    split at h
    · rename_i hb
      have : k = k' := by simpa using hb
      simp [this]
    · simp [ih h]

theorem resolve_join {fs : Node} {path : Path} {es : List (String × Node)} (name : String)
    (h : fs.resolve path = .ok (.dir es)) :
    fs.resolve (Join path name) =
      match es.lookup name with
      | none => .error .notExist
      | some c => .ok c := by
  rw [Join, resolve_append, h]
  simp only [resolve_dir_cons]
  cases es.lookup name with
  | none => rfl
  | some c => simp [resolve_nil]

theorem Base_join (path : Path) (name : String) : Base (Join path name) = name := by
  simp [Base, Join]

theorem readDirNames_dir {fs : Node} {path : Path} {es : List (String × Node)}
    (h : fs.resolve path = .ok (.dir es)) :
    readDirNames fs path = .ok ((es.map Prod.fst).insertionSort nameLE) := by
  simp [readDirNames, h]

theorem mem_readDirNames {es : List (String × Node)} {name : String} :
    name ∈ (es.map Prod.fst).insertionSort nameLE ↔ name ∈ es.map Prod.fst :=
  (List.perm_insertionSort nameLE _).mem_iff

theorem Lstat_join_of_mem {fs : Node} {path : Path} {es : List (String × Node)}
    {name : String} (h : fs.resolve path = .ok (.dir es)) (hm : name ∈ es.map Prod.fst) :
    ∃ info, Lstat fs (Join path name) = .ok info := by
  obtain ⟨c, hc⟩ := lookup_isSome_of_mem hm
  exact ⟨_, Lstat_eq_ok.2 ⟨c, by rw [resolve_join name h, hc], rfl⟩⟩

section WalkSpec

variable {σ : Type} (getFS : σ → FS) (walkFn : WalkFunc σ) (H : Nat)
  (Inv : σ → Prop) (Step : σ → σ → Prop) (Stop : σ → Err → Prop)

theorem walkNames_outcome
    (htrans : ∀ a b c, Step a b → Step b c → Step a c) (hrefl : ∀ s, Step s s)
    (hext : ∀ a b, Step a b → Extends (getFS a) (getFS b))
    (walkChild : Path → FileInfo → σ → σ × Option Err) (path : Path)
    (hchild : ∀ name info s, Inv s → Lstat (getFS s) (Join path name) = .ok info →
      Outcome Inv Step Stop s (walkChild (Join path name) info s)) :
    ∀ (names : List String) (s : σ), Inv s →
      (∀ name ∈ names, ∃ info, Lstat (getFS s) (Join path name) = .ok info) →
      Outcome Inv Step Stop s (walkNames getFS walkFn walkChild path names s) := by
  intro names
  induction names with
  | nil =>
    intro s hs _
    exact ⟨hrefl s, hs⟩
  | cons name names ih =>
    intro s hs hnames
    obtain ⟨info, hinfo⟩ := hnames name (List.mem_cons_self _ _)
    have hc := hchild name info s hs hinfo
    simp only [walkNames, hinfo]
    rcases hr : walkChild (Join path name) info s with ⟨s1, _ | e⟩
    · rw [hr] at hc
      have hrest := ih s1 hc.2 (fun n hn => by
        obtain ⟨i, hi⟩ := hnames n (List.mem_cons_of_mem _ hn)
        exact ⟨i, hext s s1 hc.1 _ _ hi⟩)
      exact ⟨htrans _ _ _ hc.1 hrest.1, hrest.2⟩
    · rw [hr] at hc
      exact hc

theorem walk_outcome
    (hH : ∀ s, Inv s → (getFS s).height ≤ H)
    (htrans : ∀ a b c, Step a b → Step b c → Step a c) (hrefl : ∀ s, Step s s)
    (hext : ∀ a b, Step a b → Extends (getFS a) (getFS b))
    (hfn : ∀ path info s, Inv s → Lstat (getFS s) path = .ok info →
      Outcome Inv Step Stop s (walkFn path info none s)) :
    ∀ (fuel : Nat) (path : Path) (info : FileInfo) (s : σ), Inv s →
      Lstat (getFS s) path = .ok info → H ≤ path.length + fuel →
      Outcome Inv Step Stop s (walk getFS walkFn fuel path info s) := by
  intro fuel
  induction fuel with
  | zero =>
    intro path info s hs hinfo hfuel
    obtain ⟨n, hn, -⟩ := Lstat_eq_ok.1 hinfo
    have h1 := height_resolve hn
    have h2 := hH s hs
    have h3 := height_pos n
    omega
  | succ fuel ih =>
    intro path info s hs hinfo hfuel
    obtain ⟨n, hn, hi⟩ := Lstat_eq_ok.1 hinfo
    cases n with
    | file b =>
      subst hi
      simp only [walk, Node.isDir, Bool.not_false, if_true]
      exact hfn _ _ s hs hinfo
    | dir es =>
      subst hi
      have hc : Outcome Inv Step Stop s (walkFn path ⟨Base path, true⟩ none s) :=
        hfn _ _ s hs hinfo
      simp only [walk, Node.isDir, Bool.not_true, Bool.false_eq_true, if_false,
        readDirNames_dir hn]
      rcases hr : walkFn path ⟨Base path, true⟩ none s with ⟨s1, _ | e⟩
      · rw [hr] at hc
        dsimp only
        have hnames := walkNames_outcome getFS walkFn Inv Step Stop htrans hrefl hext
          (walk getFS walkFn fuel) path
          (fun name info s hs hl => ih (Join path name) info s hs hl (by
            simp only [Join, List.length_append, List.length_singleton]; omega))
          ((es.map Prod.fst).insertionSort nameLE) s1 hc.2 (fun name hm => by
            obtain ⟨i, hi⟩ := Lstat_join_of_mem hn (mem_readDirNames.1 hm)
            exact ⟨i, hext s s1 hc.1 _ _ hi⟩)
        exact ⟨htrans _ _ _ hc.1 hnames.1, hnames.2⟩
      · rw [hr] at hc
        exact hc

end WalkSpec

/-! ## The count pass -/

theorem extLoop_length (before : List Char) :
    ∀ after, extLoop before after = [] ∨ after.length + 1 ≤ (extLoop before after).length := by
  induction before with
  | nil => intro after; exact Or.inl rfl
  | cons c before ih =>
    intro after
    simp only [extLoop]
    split
    · exact Or.inl rfl
    · split
      · right; simp
      · rcases ih (c :: after) with h | h
        · exact Or.inl h
        · right
          simp only [List.length_cons] at h
          omega

theorem extLoop_eq_jpg (rev : List Char) :
    extLoop rev [] = ['.', 'j', 'p', 'g'] ↔ rev.take 4 = ['g', 'p', 'j', '.'] := by
  rcases rev with _ | ⟨a, _ | ⟨b, _ | ⟨c, _ | ⟨d, rest⟩⟩⟩⟩
  · simp [extLoop]
  · simp only [extLoop]; split_ifs <;> simp
  · simp only [extLoop]; split_ifs <;> simp
  · simp only [extLoop]; split_ifs <;> simp
  · simp only [extLoop, List.take_succ_cons, List.take_zero]
    by_cases ha : a = '/'
    · simp [ha]
    by_cases ha' : a = '.'
    · simp [ha']
    by_cases hb : b = '/'
    · simp [ha, ha', hb]
    by_cases hb' : b = '.'
    · simp [ha, ha', hb']
    by_cases hc : c = '/'
    · simp [ha, ha', hb, hb', hc]
    by_cases hc' : c = '.'
    · simp [ha, ha', hb, hb', hc']
    by_cases hd : d = '/'
    · simp [ha, ha', hb, hb', hc, hc', hd]
    by_cases hd' : d = '.'
    · subst hd'
      simp only [ha, ha', hb, hb', hc, hc', if_false, if_true]
      simp
      tauto
    · simp only [ha, ha', hb, hb', hc, hc', hd, hd', if_false]
      constructor
      · intro h
        rcases extLoop_length rest [d, c, b, a] with h1 | h1
        · rw [h1] at h; simp at h
        · rw [h] at h1; simp at h1
      · intro h
        simp at h
        exact absurd h.2.2.2 hd'

/-- The filter of both callbacks, `filepath.Ext(info.Name()) == ".jpg"`, holds exactly for the
names that end in `.jpg`. -/
theorem Ext_eq_jpg_iff (name : String) : Ext name = ".jpg" ↔ hasJpgExtension name = true := by
  have h1 : Ext name = ".jpg" ↔ extLoop name.data.reverse [] = ['.', 'j', 'p', 'g'] := by
    unfold Ext
    constructor
    · intro h
      exact congrArg String.data h
    · intro h
      rw [h]
  rw [h1, extLoop_eq_jpg]
  simp [hasJpgExtension]


theorem jpgCount_file (name : String) (b : Bytes) :
    jpgCount name (.file b) = if hasJpgExtension name then 1 else 0 := rfl

theorem jpgCount_dir (name : String) (es : List (String × Node)) :
    jpgCount name (.dir es) = jpgCount.jpgCountList es := rfl

theorem jpgCountList_cons (k : String) (c : Node) (es : List (String × Node)) :
    jpgCount.jpgCountList ((k, c) :: es) = jpgCount k c + jpgCount.jpgCountList es := rfl

theorem wf_dir (es : List (String × Node)) :
    (Node.dir es).WF ↔ (es.map Prod.fst).Nodup ∧ Node.WF.wfList es := Iff.rfl

theorem wfList_cons (k : String) (c : Node) (es : List (String × Node)) :
    Node.WF.wfList ((k, c) :: es) ↔ c.WF ∧ Node.WF.wfList es := Iff.rfl

theorem wf_of_lookup {es : List (String × Node)} {k : String} {c : Node}
    (hwf : Node.WF.wfList es) (h : es.lookup k = some c) : c.WF := by
  induction es with
  | nil => simp [List.lookup] at h
  | cons e es ih =>
    obtain ⟨k', c'⟩ := e
    rw [wfList_cons] at hwf
    simp only [List.lookup] at h
    split at h
    · simp only [Option.some.injEq] at h
      subst h
      exact hwf.1
    · exact ih hwf.2 h

theorem wf_resolve {fs n : Node} {p : Path} (hwf : fs.WF) (h : fs.resolve p = .ok n) :
    n.WF := by
  induction p generalizing fs with
  | nil =>
    simp only [resolve_nil, Except.ok.injEq] at h
    subst h
    exact hwf
  | cons k p ih =>
    cases fs with
    | file b => simp [resolve_file_cons] at h
    | dir es =>
      rw [resolve_dir_cons] at h
      cases hl : es.lookup k with
      | none => simp [hl] at h
      | some c =>
        rw [hl] at h
        exact ih (wf_of_lookup ((wf_dir es).1 hwf).2 hl) h

theorem sum_entryCount_keys (es : List (String × Node)) (hnd : (es.map Prod.fst).Nodup) :
    ((es.map Prod.fst).map (entryCount es)).sum = jpgCount.jpgCountList es := by
  induction es with
  | nil => rfl
  | cons e es ih =>
    obtain ⟨k, c⟩ := e
    simp only [List.map_cons, List.nodup_cons] at hnd
    have hrest : (es.map Prod.fst).map (entryCount ((k, c) :: es)) =
        (es.map Prod.fst).map (entryCount es) := by
      apply List.map_congr_left
      intro k' hk'
      have hne : (k' == k) = false := by
        simp only [beq_eq_false_iff_ne, ne_eq]
        rintro rfl
        exact hnd.1 hk'
      simp [entryCount, List.lookup, hne]
    simp only [List.map_cons, List.sum_cons, hrest, ih hnd.2, jpgCountList_cons]
    simp [entryCount, List.lookup]

theorem walkNames_count (fuel : Nat) (path : Path) (es : List (String × Node))
    (hchild : ∀ name c (s : CountState), s.fs.resolve (Join path name) = .ok c →
      es.lookup name = some c →
      walk CountState.fs countFn fuel (Join path name) ⟨name, c.isDir⟩ s =
        ({ s with totalImages := s.totalImages + jpgCount name c }, none)) :
    ∀ (l : List String) (s : CountState), s.fs.resolve path = .ok (.dir es) →
      (∀ name ∈ l, name ∈ es.map Prod.fst) →
      walkNames CountState.fs countFn (walk CountState.fs countFn fuel) path l s =
        ({ s with totalImages := s.totalImages + (l.map (entryCount es)).sum }, none) := by
  intro l
  induction l with
  | nil => intro s _ _; simp [walkNames]
  | cons name l ih =>
    intro s hs hl
    obtain ⟨c, hc⟩ := lookup_isSome_of_mem (hl name (List.mem_cons_self _ _))
    have hres : s.fs.resolve (Join path name) = .ok c := by rw [resolve_join name hs, hc]
    have hstat : Lstat s.fs (Join path name) = .ok ⟨name, c.isDir⟩ := by
      simp [Lstat, hres, Base_join]
    simp only [walkNames, hstat, hchild name c s hres hc]
    rw [ih ⟨s.fs, s.totalImages + jpgCount name c⟩ hs
      (fun n hn => hl n (List.mem_cons_of_mem _ hn))]
    simp [entryCount, hc, Nat.add_assoc]

theorem walk_count :
    ∀ (fuel : Nat) (path : Path) (n : Node) (s : CountState), s.fs.resolve path = .ok n →
      n.WF → n.height ≤ fuel →
      walk CountState.fs countFn fuel path ⟨Base path, n.isDir⟩ s =
        ({ s with totalImages := s.totalImages + jpgCount (Base path) n }, none) := by
  intro fuel
  induction fuel with
  | zero =>
    intro path n s _ _ hh
    have := height_pos n
    omega
  | succ fuel ih =>
    intro path n s hres hwf hh
    cases n with
    | file b =>
      simp only [walk, Node.isDir, Bool.not_false, if_true, countFn, jpgCount_file,
        Bool.true_and, beq_iff_eq, Ext_eq_jpg_iff]
      split <;> rfl
    | dir es =>
      rw [wf_dir] at hwf
      rw [height_dir] at hh
      simp only [walk, Node.isDir, Bool.not_true, Bool.false_eq_true, if_false,
        readDirNames_dir hres, countFn, Bool.false_and]
      rw [walkNames_count fuel path es ?_ _ s hres (fun name hm => mem_readDirNames.1 hm)]
      · rw [(List.perm_insertionSort nameLE _).map (entryCount es) |>.sum_eq,
          sum_entryCount_keys es hwf.1, jpgCount_dir]
      · intro name c s' hres' hc
        have h1 := ih (Join path name) c s' hres' (wf_of_lookup hwf.2 hc) (by
          have := height_le_of_lookup hc
          omega)
        rw [Base_join] at h1
        exact h1

theorem countPass_eq {fs tree : Node} {inputFolder : Path}
    (h : fs.resolve inputFolder = .ok tree) (hwf : tree.WF) :
    countPass inputFolder fs = (jpgCount (Base inputFolder) tree, none) := by
  have hstat : Lstat fs inputFolder = .ok ⟨Base inputFolder, tree.isDir⟩ := by simp [Lstat, h]
  have hfuel : tree.height ≤ walkFuel fs inputFolder := by
    have := height_resolve h
    simp only [walkFuel]
    omega
  simp [countPass, Walk, hstat, walk_count _ inputFolder tree ⟨fs, 0⟩ h hwf hfuel]

/-! ## The process pass -/

theorem copyFile_extends (fs : FS) (src dst : Path) : Extends fs (copyFile fs src dst).1 := by
  unfold copyFile
  cases osOpen fs src with
  | error e => exact extends_refl _
  | ok u =>
    simp only
    cases h1 : osCreate fs dst with
    | error e => exact extends_refl _
    | ok fs1 =>
      have e1 : Extends fs fs1 := put_extends h1
      simp only
      cases readAll fs1 src with
      | error e => exact e1
      | ok b =>
        simp only
        cases h2 : fs1.put dst b with
        | error e => exact e1
        | ok fs2 => exact extends_trans e1 (put_extends h2)

theorem copyFile_height (fs : FS) (src dst : Path) :
    (copyFile fs src dst).1.height ≤ max fs.height (dst.length + 1) := by
  unfold copyFile
  cases osOpen fs src with
  | error e => simp
  | ok u =>
    simp only
    cases h1 : osCreate fs dst with
    | error e => simp
    | ok fs1 =>
      have e1 := height_put h1
      simp only
      cases readAll fs1 src with
      | error e => exact e1
      | ok b =>
        simp only
        cases h2 : fs1.put dst b with
        | error e => exact e1
        | ok fs2 =>
          have e2 := height_put h2
          simp only
          omega

/-- Lines 191-196 never return an error in this model: either nothing happens, or
`os.MkdirAll` succeeds. -/
theorem ensureFolder_eq (out : Path) (s : ProcState) :
    ensureFolder out s = (s, none) ∨
      ∃ fs1, s.fs.mkdirAll out = .ok fs1 ∧
        ensureFolder out s =
          ({ s with fs := fs1, events := s.events ++ [.mkdirAll out none] }, none) := by
  unfold ensureFolder
  cases hl : Lstat s.fs out with
  | ok info => exact Or.inl rfl
  | error err =>
    cases err with
    | notExist =>
      have hres : s.fs.resolve out = .error .notExist := by
        unfold Lstat at hl
        cases hr : s.fs.resolve out with
        | ok n => simp [hr] at hl
        | error e => simpa [hr] using hl
      obtain ⟨fs1, h1⟩ := mkdirAll_ok_of_notExist hres
      right
      exact ⟨fs1, h1, by simp [IsNotExist, h1]⟩
    | notDir => exact Or.inl rfl
    | isDir => exact Or.inl rfl
    | network => exact Or.inl rfl
    | responseFormat => exact Or.inl rfl
    | tooDeep => exact Or.inl rfl

theorem ensureFolder_spec (out : Path) (s : ProcState) :
    (ensureFolder out s).2 = none ∧
    Extends s.fs (ensureFolder out s).1.fs ∧
    (ensureFolder out s).1.fs.height ≤ max s.fs.height (out.length + 1) ∧
    (ensureFolder out s).1.processedImages = s.processedImages ∧
    ((ensureFolder out s).1.events = s.events ∨
      (ensureFolder out s).1.events = s.events ++ [.mkdirAll out none]) := by
  rcases ensureFolder_eq out s with h | ⟨fs1, h1, h⟩
  · rw [h]
    exact ⟨rfl, extends_refl _, by simp, rfl, Or.inl rfl⟩
  · rw [h]
    exact ⟨rfl, mkdirAll_extends h1, height_mkdirAll h1, rfl, Or.inr rfl⟩

theorem procStep_refl (s : ProcState) : ProcStep s s := ⟨extends_refl _, le_refl _⟩

theorem procStep_trans {a b c : ProcState} (h1 : ProcStep a b) (h2 : ProcStep b c) :
    ProcStep a c := ⟨extends_trans h1.1 h2.1, le_trans h1.2 h2.2⟩

theorem Quiet.countP_isOcr {mid : List Event} (h : Quiet mid) : mid.countP Event.isOcr = 0 :=
  List.countP_eq_zero.2 fun ev hev => by simp [(h ev hev).2.1]

theorem Quiet.countP_isSetValue {mid : List Event} (h : Quiet mid) :
    mid.countP Event.isSetValue = 0 :=
  List.countP_eq_zero.2 fun ev hev => by simp [(h ev hev).2.2.1]

theorem Quiet.close_not_mem {mid : List Event} (h : Quiet mid) : Event.close ∉ mid :=
  fun hm => (h _ hm).2.2.2 rfl

theorem Quiet.nil : Quiet [] := fun _ h => by simp at h

theorem Quiet.mkdirAll (out : Path) : Quiet [.mkdirAll out none] := by
  intro ev h
  simp only [List.mem_singleton] at h
  subst h
  exact ⟨rfl, rfl, rfl, by simp⟩

theorem Quiet.append {a b : List Event} (ha : Quiet a) (hb : Quiet b) : Quiet (a ++ b) := by
  intro ev h
  rcases List.mem_append.1 h with h | h
  · exact ha ev h
  · exact hb ev h

theorem Quiet.copy (src dst : Path) : Quiet [.copy src dst none] := by
  intro ev h
  simp only [List.mem_singleton] at h
  subst h
  exact ⟨rfl, rfl, rfl, by simp⟩

theorem finishFile_eq (env : Env) (total : Nat) (s : ProcState) :
    finishFile env total s =
      if s.processedImages + 1 = total then
        { s with processedImages := s.processedImages + 1,
                 events := s.events ++ [.setValue (env.progress (s.processedImages + 1) total)]
                   ++ [.close] }
      else
        { s with processedImages := s.processedImages + 1,
                 events := s.events ++
                   [.setValue (env.progress (s.processedImages + 1) total)] } := rfl

theorem finishFile_inv {env : Env} {fs0 : FS} {H total : Nat} {s : ProcState}
    (s1 : ProcState) (p : Path) (mid : List Event) (hs : ProcInv env fs0 H total s)
    (hp : s1.processedImages = s.processedImages)
    (hev : s1.events = s.events ++ .ocr p none :: mid) (hq : Quiet mid)
    (hext : Extends s.fs s1.fs) (hh : s1.fs.height ≤ H) :
    ProcInv env fs0 H total (finishFile env total s1) ∧
      (finishFile env total s1).processedImages = s.processedImages + 1 ∧
      (finishFile env total s1).fs = s1.fs := by
  have hc1 := hq.countP_isOcr
  have hc2 := hq.countP_isSetValue
  have hc3 := hq.close_not_mem
  rw [finishFile_eq]
  by_cases hlast : s1.processedImages + 1 = total
  · rw [if_pos hlast]
    refine ⟨⟨hh, extends_trans hs.ext hext, ?_, ?_, ?_, ?_, ?_⟩, by simp [hp], rfl⟩
    · intro ev hm
      simp only [hev, List.mem_append, List.mem_cons, List.mem_singleton, List.not_mem_nil,
        or_false] at hm
      rcases hm with ((hm | hm | hm) | hm) | hm
      · exact hs.allOk ev hm
      · subst hm; rfl
      · exact (hq ev hm).1
      · subst hm; rfl
      · subst hm; rfl
    · simp [hev, List.countP_append, List.countP_cons, Event.isOcr, hs.ocrCount, hc1, hp]
    · simp [hev, List.countP_append, List.countP_cons, Event.isOcr, Event.isSetValue,
        hs.setCount, hc2, hp]
    · intro h
      simp only at h
      omega
    · intro _ _
      refine ⟨s1.events, [], ?_, ?_, ?_, ?_⟩
      · simp [hlast]
      · rw [hev]
        simp only [List.mem_append, List.mem_cons, not_or]
        exact ⟨hs.closeBefore (Or.inl (by omega)), by simp, hc3⟩
      · simp
      · simp [hev, List.countP_append, List.countP_cons, Event.isSetValue, hs.setCount, hc2]
        omega
  · rw [if_neg hlast]
    refine ⟨⟨hh, extends_trans hs.ext hext, ?_, ?_, ?_, ?_, ?_⟩, by simp [hp], rfl⟩
    · intro ev hm
      simp only [hev, List.mem_append, List.mem_cons, List.mem_singleton, List.not_mem_nil,
        or_false] at hm
      rcases hm with (hm | hm | hm) | hm
      · exact hs.allOk ev hm
      · subst hm; rfl
      · exact (hq ev hm).1
      · subst hm; rfl
    · simp [hev, List.countP_append, List.countP_cons, Event.isOcr, hs.ocrCount, hc1, hp]
    · simp [hev, List.countP_append, List.countP_cons, Event.isOcr, Event.isSetValue,
        hs.setCount, hc2, hp]
    · intro h
      simp only at h
      have hb := hs.closeBefore (by omega)
      simp only [hev, List.mem_append, List.mem_cons, List.mem_singleton, not_or]
      exact ⟨⟨hb, by simp, hc3⟩, by simp⟩
    · intro hpos hle
      simp only at hle
      obtain ⟨pre, post, he, h1, h2, h3⟩ := hs.closeAfter hpos (by omega)
      refine ⟨pre, post ++ .ocr p none :: mid ++
        [.setValue (env.progress (s1.processedImages + 1) total)], ?_, h1, ?_, h3⟩
      · simp [hev, he]
      · simp only [List.mem_append, List.mem_cons, List.mem_singleton, not_or]
        exact ⟨⟨h2, by simp, hc3⟩, by simp⟩

theorem processFn_skip (env : Env) (out : Path) (total : Nat) (path : Path) (info : FileInfo)
    (s : ProcState) (h : (!info.isDir && Ext info.name == ".jpg") = false) :
    processFn env out total path info none s = (s, none) := by
  simp [processFn, h]

theorem processFn_ocr_error (env : Env) (out : Path) (total : Nat) (path : Path)
    (info : FileInfo) (s : ProcState) (h : (!info.isDir && Ext info.name == ".jpg") = true)
    {e : Err} (hocr : ocrSpaceFile env.service s.fs path false "K81163354788957" "pol" "2"
      = .error e) :
    processFn env out total path info none s =
      ({ s with events := s.events ++ [.ocr path (some e)] }, some e) := by
  simp [processFn, h, hocr]

theorem processFn_no_results (env : Env) (out : Path) (total : Nat) (path : Path)
    (info : FileInfo) (s : ProcState) (h : (!info.isDir && Ext info.name == ".jpg") = true)
    {r : OCRResponse} (hocr : ocrSpaceFile env.service s.fs path false "K81163354788957"
      "pol" "2" = .ok r) (hr : r.ParsedResults = []) :
    processFn env out total path info none s =
      (finishFile env total { s with events := s.events ++ [.ocr path none] }, none) := by
  simp [processFn, h, hocr, hr]

theorem processFn_results (env : Env) (out : Path) (total : Nat) (path : Path)
    (info : FileInfo) (s : ProcState) (h : (!info.isDir && Ext info.name == ".jpg") = true)
    {r : OCRResponse} (hocr : ocrSpaceFile env.service s.fs path false "K81163354788957"
      "pol" "2" = .ok r) {first : ParsedResult} {rest : List ParsedResult}
    (hr : r.ParsedResults = first :: rest) {s2 : ProcState}
    (hens : ensureFolder out { s with events := s.events ++ [.ocr path none] } = (s2, none)) :
    processFn env out total path info none s =
      match copyFile s2.fs path (Join out (extractTimePattern first.ParsedText ++ ".jpg")) with
      | (fs3, some e) =>
          ({ s2 with fs := fs3,
                     events := s2.events ++
                       [.copy path (Join out (extractTimePattern first.ParsedText ++ ".jpg"))
                         (some e)] }, some e)
      | (fs3, none) =>
          (finishFile env total
            { s2 with fs := fs3,
                      events := s2.events ++
                        [.copy path (Join out (extractTimePattern first.ParsedText ++ ".jpg"))
                          none] }, none) := by
  simp [processFn, h, hocr, hr, hens]

theorem processFn_outcome (env : Env) (fs0 : FS) (H total : Nat) (root : Path)
    (hH : root.length + 3 ≤ H) (path : Path) (info : FileInfo) (s : ProcState)
    (hs : ProcInv env fs0 H total s) :
    Outcome (ProcInv env fs0 H total) ProcStep (ProcStop env fs0 H total) s
      (processFn env (Join root "Fotos Renomeadas") total path info none s) := by
  cases hm : (!info.isDir && Ext info.name == ".jpg") with
  | false =>
    rw [processFn_skip _ _ _ _ _ _ hm]
    exact ⟨procStep_refl s, hs⟩
  | true =>
    cases hocr : ocrSpaceFile env.service s.fs path false "K81163354788957" "pol" "2" with
    | error e =>
      rw [processFn_ocr_error _ _ _ _ _ _ hm hocr]
      exact ⟨⟨extends_refl _, le_refl _⟩, s, hs, rfl, Or.inl ⟨path, rfl⟩⟩
    | ok r =>
      cases hr : r.ParsedResults with
      | nil =>
        rw [processFn_no_results _ _ _ _ _ _ hm hocr hr]
        obtain ⟨h1, h2, h3⟩ := finishFile_inv { s with events := s.events ++ [.ocr path none] }
          path [] hs rfl rfl Quiet.nil (extends_refl _) hs.height
        exact ⟨⟨by rw [h3]; exact extends_refl _, by rw [h2]; omega⟩, h1⟩
      | cons first rest =>
        obtain ⟨hnone, hext2, hh2, hp2, hev2⟩ := ensureFolder_spec (Join root "Fotos Renomeadas")
          { s with events := s.events ++ [.ocr path none] }
        rcases hE : ensureFolder (Join root "Fotos Renomeadas")
          { s with events := s.events ++ [.ocr path none] } with ⟨s2, e2⟩
        rw [hE] at hnone hext2 hh2 hp2 hev2
        simp only at hnone hext2 hh2 hp2 hev2
        subst hnone
        rw [processFn_results _ _ _ _ _ _ hm hocr hr hE]
        have hmid : ∃ mid, Quiet mid ∧ s2.events = s.events ++ .ocr path none :: mid := by
          rcases hev2 with h | h
          · exact ⟨[], Quiet.nil, by simp [h]⟩
          · exact ⟨[.mkdirAll (Join root "Fotos Renomeadas") none], Quiet.mkdirAll _, by simp [h]⟩
        obtain ⟨mid, hq, hev⟩ := hmid
        have hce := copyFile_extends s2.fs path
          (Join (Join root "Fotos Renomeadas") (extractTimePattern first.ParsedText ++ ".jpg"))
        have hch := copyFile_height s2.fs path
          (Join (Join root "Fotos Renomeadas") (extractTimePattern first.ParsedText ++ ".jpg"))
        have hsh := hs.height
        have hlen : (Join (Join root "Fotos Renomeadas")
            (extractTimePattern first.ParsedText ++ ".jpg")).length = root.length + 2 := by
          simp [Join]
        have hlen2 : (Join root "Fotos Renomeadas").length = root.length + 1 := by
          simp [Join]
        rw [hlen] at hch
        rw [hlen2] at hh2
        rcases hC : copyFile s2.fs path
          (Join (Join root "Fotos Renomeadas") (extractTimePattern first.ParsedText ++ ".jpg"))
          with ⟨fs3, _ | e⟩
        · rw [hC] at hce hch
          simp only at hce hch ⊢
          obtain ⟨h1, h2, h3⟩ := finishFile_inv
            { s2 with fs := fs3, events := s2.events ++ [.copy path
              (Join (Join root "Fotos Renomeadas")
                (extractTimePattern first.ParsedText ++ ".jpg")) none] }
            path (mid ++ [.copy path
              (Join (Join root "Fotos Renomeadas")
                (extractTimePattern first.ParsedText ++ ".jpg")) none])
            hs hp2 (by simp [hev]) (hq.append (Quiet.copy _ _)) (extends_trans hext2 hce) (by
              simp only; omega)
          exact ⟨⟨by rw [h3]; exact extends_trans hext2 hce, by rw [h2]; omega⟩, h1⟩
        · rw [hC] at hce hch
          simp only at hce hch ⊢
          refine ⟨⟨extends_trans hext2 hce, by simp [hp2]⟩, s, hs, hp2, Or.inr ⟨path,
            Join (Join root "Fotos Renomeadas") (extractTimePattern first.ParsedText ++ ".jpg"),
            mid, ?_, hq⟩⟩
          simp [hev]

theorem append_singleton_eq_split {α : Type} {l pre post : List α} {x y : α}
    (h : l ++ [x] = pre ++ y :: post) (hy : y ∉ l) : pre = l ∧ y = x ∧ post = [] := by
  induction l generalizing pre with
  | nil =>
    cases pre with
    | nil =>
      simp only [List.nil_append, List.cons.injEq] at h
      exact ⟨rfl, h.1.symm, h.2.symm⟩
    | cons a pre =>
      simp only [List.nil_append, List.cons_append, List.cons.injEq] at h
      have := h.2
      cases pre <;> simp at this
  | cons a l ih =>
    cases pre with
    | nil =>
      simp only [List.cons_append, List.nil_append, List.cons.injEq] at h
      exact absurd (h.1 ▸ List.mem_cons_self a l) hy
    | cons b pre =>
      simp only [List.cons_append, List.cons.injEq] at h
      obtain ⟨h1, h2, h3⟩ := ih h.2 (fun hm => hy (List.mem_cons_of_mem _ hm))
      exact ⟨by rw [h.1, h1], h2, h3⟩

theorem procInv_init (env : Env) (fs : FS) (inputFolder : Path) (total : Nat) :
    ProcInv env fs (walkFuel fs inputFolder) total ⟨fs, 0, []⟩ where
  height := by simp [walkFuel]
  ext := extends_refl _
  allOk := by simp
  ocrCount := rfl
  setCount := rfl
  closeBefore := by simp
  closeAfter := by
    intro h1 h2
    simp only at h2
    omega

/-- The process pass either finds no input folder and stops at once, or walks it with the
invariant kept between files and the stop state reached at the first error. -/
theorem processPass_outcome (env : Env) (inputFolder : Path) (fs : FS) :
    (∃ err, Lstat fs inputFolder = .error err ∧
      processPass env inputFolder fs = (⟨fs, 0, []⟩, some err)) ∨
    Outcome (ProcInv env fs (walkFuel fs inputFolder) (countPass inputFolder fs).1) ProcStep
      (ProcStop env fs (walkFuel fs inputFolder) (countPass inputFolder fs).1) ⟨fs, 0, []⟩
      (processPass env inputFolder fs) := by
  cases hl : Lstat fs inputFolder with
  | error err =>
    left
    exact ⟨err, rfl, by simp [processPass, Walk, hl, processFn]⟩
  | ok info =>
    right
    have h := walk_outcome ProcState.fs
      (processFn env (Join inputFolder "Fotos Renomeadas") (countPass inputFolder fs).1)
      (walkFuel fs inputFolder)
      (ProcInv env fs (walkFuel fs inputFolder) (countPass inputFolder fs).1) ProcStep
      (ProcStop env fs (walkFuel fs inputFolder) (countPass inputFolder fs).1)
      (fun s hs => hs.height) (fun a b c => procStep_trans) procStep_refl (fun a b h => h.1)
      (fun path info s hs _ => processFn_outcome env fs _ _ inputFolder
        (by simp [walkFuel]) path info s hs)
      (walkFuel fs inputFolder) inputFolder info ⟨fs, 0, []⟩
      (procInv_init env fs inputFolder _) hl (by omega)
    simpa [processPass, Walk, hl] using h

/-- A call that returned an error is the last call of the run; the run stopped there with
that error and with the counter of the files finished before. -/
theorem failed_event_last (env : Env) (inputFolder : Path) (fs : FS) (pre post : List Event)
    (ev : Event) (e : Err) (hev : ev.err = some e)
    (h : (processPass env inputFolder fs).1.events = pre ++ ev :: post) :
    post = [] ∧ (processPass env inputFolder fs).2 = some e ∧
      (∀ x ∈ pre, x.err = none) ∧
      (ev.isOcr = true →
        (processPass env inputFolder fs).1.processedImages = pre.countP Event.isOcr ∧
        pre.countP Event.isSetValue = pre.countP Event.isOcr) := by
  rcases processPass_outcome env inputFolder fs with ⟨err, -, h0⟩ | ⟨-, hout⟩
  · rw [h0] at h
    simp at h
  · rcases hr : (processPass env inputFolder fs) with ⟨s', _ | e'⟩
    · rw [hr] at hout h
      have hall := hout.allOk ev (by simp only at h; rw [h]; simp)
      rw [hev] at hall
      cases hall
    · rw [hr] at hout h
      obtain ⟨s0, hs0, hp, hshape⟩ := hout
      simp only at h hp hshape ⊢
      have hnot : ∀ l : List Event, (∀ x ∈ l, x.err = none) → ev ∉ l := by
        intro l hl hm
        have := hl ev hm
        rw [hev] at this
        cases this
      rcases hshape with ⟨p, hsh⟩ | ⟨p, dst, mid, hsh, hq⟩
      · rw [h] at hsh
        obtain ⟨h1, h2, h3⟩ := append_singleton_eq_split hsh.symm (hnot _ hs0.allOk)
        subst h1 h2 h3
        simp only [Event.err, Option.some.injEq] at hev
        subst hev
        refine ⟨rfl, rfl, hs0.allOk, fun _ => ⟨?_, ?_⟩⟩
        · rw [hp, hs0.ocrCount]
        · rw [hs0.setCount, hs0.ocrCount]
      · have hsh' : (s0.events ++ .ocr p none :: mid) ++ [.copy p dst (some e')] =
            pre ++ ev :: post := by rw [← h, hsh]
        have hok : ∀ x ∈ s0.events ++ .ocr p none :: mid, x.err = none := by
          intro x hx
          simp only [List.mem_append, List.mem_cons] at hx
          rcases hx with hx | hx | hx
          · exact hs0.allOk x hx
          · subst hx; rfl
          · exact (hq x hx).1
        obtain ⟨h1, h2, h3⟩ := append_singleton_eq_split hsh' (hnot _ hok)
        subst h1 h2 h3
        simp only [Event.err, Option.some.injEq] at hev
        subst hev
        exact ⟨rfl, rfl, hok, fun hocr => by simp [Event.isOcr] at hocr⟩

theorem finishFile_fs (env : Env) (total : Nat) (s : ProcState) :
    (finishFile env total s).fs = s.fs := by
  rw [finishFile_eq]
  split <;> rfl

theorem finishFile_events (env : Env) (total : Nat) (s : ProcState) :
    ∃ after, (finishFile env total s).events = s.events ++ after := by
  rw [finishFile_eq]
  split
  · exact ⟨_, List.append_assoc _ _ _⟩
  · exact ⟨_, rfl⟩

/-- The process pass stops only for a missing input folder or for a failed OCR call or copy,
which is then its last call: the depth bound of `walk` is never what stops it. -/
theorem processPass_error (env : Env) (inputFolder : Path) (fs : FS) (e : Err)
    (h : (processPass env inputFolder fs).2 = some e) :
    Lstat fs inputFolder = .error e ∨
      ∃ pre ev, (processPass env inputFolder fs).1.events = pre ++ [ev] ∧ ev.err = some e ∧
        (ev.isOcr = true ∨ ev.isCopy = true) := by
  rcases processPass_outcome env inputFolder fs with ⟨err, herr, h0⟩ | ⟨-, hout⟩
  · rw [h0] at h
    simp only [Option.some.injEq] at h
    subst h
    exact Or.inl herr
  · right
    rcases hr : (processPass env inputFolder fs) with ⟨s', _ | e'⟩
    · rw [hr] at h
      simp at h
    · rw [hr] at hout h
      simp only [Option.some.injEq] at h
      subst h
      obtain ⟨s0, -, -, hshape⟩ := hout
      rcases hshape with ⟨p, hsh⟩ | ⟨p, dst, mid, hsh, -⟩
      · exact ⟨_, _, hsh, rfl, Or.inl rfl⟩
      · exact ⟨_, _, hsh, rfl, Or.inr rfl⟩

/-- The count pass stops only for a missing input folder. -/
theorem countPass_error (inputFolder : Path) (fs : FS) (e : Err) (hwf : fs.WF)
    (h : (countPass inputFolder fs).2 = some e) : Lstat fs inputFolder = .error e := by
  cases hl : Lstat fs inputFolder with
  | error err =>
    simp [countPass, Walk, hl, countFn] at h
    rw [h]
  | ok info =>
    obtain ⟨n, hn, -⟩ := Lstat_eq_ok.1 hl
    have hwfn : n.WF := wf_resolve hwf hn
    rw [countPass_eq hn hwfn] at h
    simp at h

theorem sum_map_le_of_nodup_subset (g : String → Nat) :
    ∀ (l1 l2 : List String), l1.Nodup → l1 ⊆ l2 → (l1.map g).sum ≤ (l2.map g).sum := by
  intro l1
  induction l1 with
  | nil => intro l2 _ _; simp
  | cons a l1 ih =>
    intro l2 hnd hsub
    have ha : a ∈ l2 := hsub (List.mem_cons_self _ _)
    have hperm := List.perm_cons_erase ha
    have hsum : (l2.map g).sum = g a + ((l2.erase a).map g).sum := by
      rw [(hperm.map g).sum_eq]
      simp
    rw [List.nodup_cons] at hnd
    have hsub' : l1 ⊆ l2.erase a := by
      intro x hx
      have hne : x ≠ a := by
        rintro rfl
        exact hnd.1 hx
      exact (List.mem_erase_of_ne hne).2 (hsub (List.mem_cons_of_mem _ hx))
    have := ih (l2.erase a) hnd.2 hsub'
    simp only [List.map_cons, List.sum_cons, hsum]
    omega

theorem finishFile_processed (env : Env) (total : Nat) (s : ProcState) :
    (finishFile env total s).processedImages = s.processedImages + 1 := by
  rw [finishFile_eq]
  split <;> rfl

/-- A matching file whose callback returns no error advances the counter by one. -/
theorem processFn_processed (env : Env) (out : Path) (total : Nat) (path : Path)
    (info : FileInfo) (s : ProcState) (hm : (!info.isDir && Ext info.name == ".jpg") = true)
    (hnone : (processFn env out total path info none s).2 = none) :
    (processFn env out total path info none s).1.processedImages = s.processedImages + 1 := by
  cases hocr : ocrSpaceFile env.service s.fs path false "K81163354788957" "pol" "2" with
  | error e =>
    rw [processFn_ocr_error _ _ _ _ _ _ hm hocr] at hnone
    simp at hnone
  | ok r =>
    cases hr : r.ParsedResults with
    | nil =>
      rw [processFn_no_results _ _ _ _ _ _ hm hocr hr, finishFile_processed]
    | cons first rest =>
      obtain ⟨hn, -, -, hp2, -⟩ := ensureFolder_spec out
        { s with events := s.events ++ [.ocr path none] }
      rcases hE : ensureFolder out { s with events := s.events ++ [.ocr path none] }
        with ⟨s2, e2⟩
      rw [hE] at hn hp2
      simp only at hn hp2
      subst hn
      rw [processFn_results _ _ _ _ _ _ hm hocr hr hE] at hnone ⊢
      rcases hC : copyFile s2.fs path (Join out (extractTimePattern first.ParsedText ++ ".jpg"))
        with ⟨fs3, _ | e⟩
      · simp only [finishFile_processed, hp2]
      · rw [hC] at hnone
        simp at hnone

section LowerBound

variable (env : Env) (fs0 : FS) (H total : Nat) (root : Path)

theorem walkNames_processed_ge (path : Path) (es0 : List (String × Node))
    (walkChild : Path → FileInfo → ProcState → ProcState × Option Err)
    (hout : ∀ name info s, ProcInv env fs0 H total s →
      Lstat s.fs (Join path name) = .ok info →
      Outcome (ProcInv env fs0 H total) ProcStep (ProcStop env fs0 H total) s
        (walkChild (Join path name) info s))
    (hge : ∀ name c0 info s, ProcInv env fs0 H total s →
      Lstat s.fs (Join path name) = .ok info → es0.lookup name = some c0 →
      (walkChild (Join path name) info s).2 = none →
      s.processedImages + jpgCount name c0 ≤
        (walkChild (Join path name) info s).1.processedImages) :
    ∀ (l : List String) (s : ProcState), ProcInv env fs0 H total s →
      (∀ name ∈ l, ∃ info, Lstat s.fs (Join path name) = .ok info) →
      (walkNames ProcState.fs (processFn env (Join root "Fotos Renomeadas") total) walkChild
        path l s).2 = none →
      s.processedImages + (l.map (entryCount es0)).sum ≤
        (walkNames ProcState.fs (processFn env (Join root "Fotos Renomeadas") total) walkChild
          path l s).1.processedImages := by
  intro l
  induction l with
  | nil => intro s _ _ _; simp [walkNames]
  | cons name l ih =>
    intro s hs hl hnone
    obtain ⟨info, hinfo⟩ := hl name (List.mem_cons_self _ _)
    have ho := hout name info s hs hinfo
    simp only [walkNames, hinfo] at hnone ⊢
    rcases hr : walkChild (Join path name) info s with ⟨s1, _ | e⟩
    · rw [hr] at ho hnone
      simp only at hnone ⊢
      have hrest := ih s1 ho.2 (fun n hn => by
        obtain ⟨i, hi⟩ := hl n (List.mem_cons_of_mem _ hn)
        exact ⟨i, ho.1.1 _ _ hi⟩) hnone
      have hfirst : s.processedImages + entryCount es0 name ≤ s1.processedImages := by
        unfold entryCount
        cases hc : es0.lookup name with
        | none =>
          have := ho.1.2
          simpa using this
        | some c0 =>
          have := hge name c0 info s hs hinfo hc (by rw [hr])
          rw [hr] at this
          exact this
      simp only [List.map_cons, List.sum_cons]
      omega
    · rw [hr] at hnone
      simp at hnone

theorem walk_processed_ge (hH : root.length + 3 ≤ H) :
    ∀ (fuel : Nat) (path : Path) (n0 : Node) (info : FileInfo) (s : ProcState),
      ProcInv env fs0 H total s → Lstat s.fs path = .ok info → H ≤ path.length + fuel →
      fs0.resolve path = .ok n0 → n0.WF →
      (walk ProcState.fs (processFn env (Join root "Fotos Renomeadas") total) fuel path info
        s).2 = none →
      s.processedImages + jpgCount (Base path) n0 ≤
        (walk ProcState.fs (processFn env (Join root "Fotos Renomeadas") total) fuel path info
          s).1.processedImages := by
  intro fuel
  induction fuel with
  | zero =>
    intro path n0 info s _ _ _ _ _ hnone
    simp [walk] at hnone
  | succ fuel ih =>
    intro path n0 info s hs hinfo hfuel h0 hwf hnone
    obtain ⟨n, hn, hi⟩ := Lstat_eq_ok.1 hinfo
    obtain ⟨n', hn', hd⟩ := hs.ext.resolve h0
    rw [hn] at hn'
    simp only [Except.ok.injEq] at hn'
    subst hn'
    have hfnout := fun p i s' (hs' : ProcInv env fs0 H total s') =>
      processFn_outcome env fs0 H total root hH p i s' hs'
    cases n0 with
    | file b0 =>
      have hdir : info.isDir = false := by rw [hi, hd]; rfl
      have hname : info.name = Base path := by rw [hi]
      simp only [walk, hdir, Bool.not_false, if_true] at hnone ⊢
      rw [jpgCount_file]
      by_cases hext : hasJpgExtension (Base path) = true
      · rw [if_pos hext]
        have hm : (!info.isDir && Ext info.name == ".jpg") = true := by
          simp [hdir, hname, (Ext_eq_jpg_iff _).2 hext]
        rw [processFn_processed _ _ _ _ _ _ hm hnone]
      · rw [if_neg hext]
        have := (hfnout path info s hs).1.2
        simpa using this
    | dir es0 =>
      have hdir : info.isDir = true := by rw [hi, hd]; rfl
      cases n with
      | file b => simp [Node.isDir] at hd
      | dir es =>
        have hskip : processFn env (Join root "Fotos Renomeadas") total path info none s =
            (s, none) := processFn_skip _ _ _ _ _ _ (by simp [hdir])
        simp only [walk, hdir, Bool.not_true, Bool.false_eq_true, if_false,
          readDirNames_dir hn, hskip] at hnone ⊢
        rw [wf_dir] at hwf
        have hwalk := walk_outcome ProcState.fs
          (processFn env (Join root "Fotos Renomeadas") total) H
          (ProcInv env fs0 H total) ProcStep (ProcStop env fs0 H total)
          (fun s hs => hs.height) (fun a b c => procStep_trans) procStep_refl
          (fun a b h => h.1) (fun p i s' hs' _ => hfnout p i s' hs') fuel
        have hlen : ∀ name, H ≤ (Join path name).length + fuel := by
          intro name
          simp only [Join, List.length_append, List.length_singleton]
          omega
        have hmain := walkNames_processed_ge env fs0 H total root path es0
          (walk ProcState.fs (processFn env (Join root "Fotos Renomeadas") total) fuel)
          (fun name i s' hs' hl => hwalk (Join path name) i s' hs' hl (hlen name))
          (fun name c0 i s' hs' hl hc hnn => by
            have := ih (Join path name) c0 i s' hs' hl (hlen name)
              (by rw [resolve_join name h0, hc]) (wf_of_lookup hwf.2 hc) hnn
            rwa [Base_join] at this)
          ((es.map Prod.fst).insertionSort nameLE) s hs
          (fun name hm => Lstat_join_of_mem hn (mem_readDirNames.1 hm)) hnone
        have hsub : es0.map Prod.fst ⊆ (es.map Prod.fst).insertionSort nameLE := by
          intro k hk
          obtain ⟨c0, hc0⟩ := lookup_isSome_of_mem hk
          have h1 : fs0.resolve (Join path k) = .ok c0 := by rw [resolve_join k h0, hc0]
          obtain ⟨c, hc, -⟩ := hs.ext.resolve h1
          rw [resolve_join k hn] at hc
          cases hl : es.lookup k with
          | none => simp [hl] at hc
          | some c' => exact mem_readDirNames.2 (mem_of_lookup hl)
        have hsum := sum_map_le_of_nodup_subset (entryCount es0) _ _ hwf.1 hsub
        rw [sum_entryCount_keys es0 hwf.1] at hsum
        rw [jpgCount_dir]
        omega

end LowerBound

/-! ## Content of files -/

theorem put_resolve_self {fs fs' : Node} {q : Path} {b : Bytes} (h : fs.put q b = .ok fs') :
    fs'.resolve q = .ok (.file b) := by
  induction q generalizing fs fs' with
  | nil =>
    cases fs with
    | file c =>
      simp only [Node.put, Except.ok.injEq] at h
      subst h
      rfl
    | dir es => simp [Node.put] at h
  | cons name rest ih =>
    cases fs with
    | file c => simp [Node.put] at h
    | dir es =>
      simp only [Node.put] at h
      cases hl : es.lookup name with
      | some c =>
        rw [hl] at h
        cases hc : c.put rest b with
        | error e => simp [hc] at h
        | ok c' =>
          simp only [hc, Except.ok.injEq] at h
          subst h
          rw [resolve_dir_cons, lookup_setEntry_self]
          exact ih hc
      | none =>
        rw [hl] at h
        cases rest with
        | nil =>
          simp only [Except.ok.injEq] at h
          subst h
          rw [resolve_dir_cons, lookup_setEntry_self]
          rfl
        | cons _ _ => simp at h

/-- Writing a file leaves every other regular file as it was. -/
theorem put_resolve_file_ne {fs fs' : Node} {q : Path} {b : Bytes} (h : fs.put q b = .ok fs') :
    ∀ (p : Path) (c : Bytes), p ≠ q → fs.resolve p = .ok (.file c) →
      fs'.resolve p = .ok (.file c) := by
  induction q generalizing fs fs' with
  | nil =>
    cases fs with
    | file c0 =>
      intro p c hne hp
      cases p with
      | nil => exact absurd rfl hne
      | cons k p => simp [resolve_file_cons] at hp
    | dir es => simp [Node.put] at h
  | cons name rest ih =>
    cases fs with
    | file c0 => simp [Node.put] at h
    | dir es =>
      intro p c hne hp
      cases p with
      | nil => simp [resolve_nil] at hp
      | cons k p =>
        simp only [Node.put] at h
        rw [resolve_dir_cons] at hp
        by_cases hk : k = name
        · subst hk
          cases hl : es.lookup k with
          | none => simp [hl] at hp
          | some c1 =>
            rw [hl] at h hp
            cases hc : c1.put rest b with
            | error e => simp [hc] at h
            | ok c' =>
              simp only [hc, Except.ok.injEq] at h
              subst h
              rw [resolve_dir_cons, lookup_setEntry_self]
              exact ih hc p c (fun hpe => hne (by rw [hpe])) hp
        · have hfs' : ∃ v, fs' = .dir (setEntry name v es) := by
            cases hl : es.lookup name with
            | some c1 =>
              rw [hl] at h
              cases hc : c1.put rest b with
              | error e => simp [hc] at h
              | ok c' =>
                simp only [hc, Except.ok.injEq] at h
                exact ⟨c', h.symm⟩
            | none =>
              rw [hl] at h
              cases rest with
              | nil =>
                simp only [Except.ok.injEq] at h
                exact ⟨_, h.symm⟩
              | cons _ _ => simp at h
          obtain ⟨v, rfl⟩ := hfs'
          rw [resolve_dir_cons, lookup_setEntry_ne v es hk]
          exact hp

/-- Go's `os.MkdirAll` leaves every regular file as it was. -/
theorem mkdirAll_resolve_file {fs fs' : Node} {q : Path} (h : fs.mkdirAll q = .ok fs') :
    ∀ (p : Path) (c : Bytes), fs.resolve p = .ok (.file c) → fs'.resolve p = .ok (.file c) := by
  induction q generalizing fs fs' with
  | nil =>
    cases fs with
    | file c0 => simp [Node.mkdirAll] at h
    | dir es =>
      simp only [Node.mkdirAll, Except.ok.injEq] at h
      subst h
      exact fun p c hp => hp
  | cons name rest ih =>
    cases fs with
    | file c0 => simp [Node.mkdirAll] at h
    | dir es =>
      intro p c hp
      rw [mkdirAll_dir_cons] at h
      cases p with
      | nil => simp [resolve_nil] at hp
      | cons k p =>
        rw [resolve_dir_cons] at hp
        cases hl : es.lookup name with
        | none =>
          rw [hl] at h
          obtain ⟨c', hc'⟩ := mkdirAll_empty_ok rest
          simp only [hc', Except.ok.injEq] at h
          subst h
          by_cases hk : k = name
          · subst hk
            simp [hl] at hp
          · rw [resolve_dir_cons, lookup_setEntry_ne c' es hk]
            exact hp
        | some c1 =>
          rw [hl] at h
          cases hc : c1.mkdirAll rest with
          | error e => simp [hc] at h
          | ok c' =>
            simp only [hc, Except.ok.injEq] at h
            subst h
            by_cases hk : k = name
            · subst hk
              rw [hl] at hp
              rw [resolve_dir_cons, lookup_setEntry_self]
              exact ih hc p c hp
            · rw [resolve_dir_cons, lookup_setEntry_ne c' es hk]
              exact hp

theorem readAll_eq_ok {fs : FS} {p : Path} {b : Bytes} :
    readAll fs p = .ok b ↔ fs.resolve p = .ok (.file b) := by
  unfold readAll
  cases h : fs.resolve p with
  | error e => simp
  | ok n =>
    cases n with
    | file c => simp
    | dir es => simp

/-- A successful `copyFile` between two different paths leaves at the destination the
content the source had, whatever the destination held before. -/
theorem copyFile_content {fs fs' : FS} {src dst : Path} {b : Bytes}
    (hsrc : readAll fs src = .ok b) (hne : src ≠ dst)
    (h : copyFile fs src dst = (fs', none)) : readAll fs' dst = .ok b := by
  have hres := readAll_eq_ok.1 hsrc
  unfold copyFile at h
  simp only [osOpen, hres] at h
  cases h1 : osCreate fs dst with
  | error e => simp [h1] at h
  | ok fs1 =>
    have hsrc1 : readAll fs1 src = .ok b :=
      readAll_eq_ok.2 (put_resolve_file_ne h1 src b hne hres)
    simp only [h1, hsrc1] at h
    cases h2 : fs1.put dst b with
    | error e => simp [h2] at h
    | ok fs2 =>
      simp only [h2, Prod.mk.injEq, and_true] at h
      subst h
      exact readAll_eq_ok.2 (put_resolve_self h2)

/-- Copying an existing regular file onto itself succeeds and leaves it empty. -/
theorem copyFile_self {fs : FS} {p : Path} {b : Bytes} (hsrc : readAll fs p = .ok b) :
    ∃ fs', copyFile fs p p = (fs', none) ∧ readAll fs' p = .ok [] := by
  have hres := readAll_eq_ok.1 hsrc
  obtain ⟨n', hn', hd⟩ := Extends.resolve (extends_refl fs) hres
  have hput : ∀ (fs : Node) (p : Path) (b c : Bytes), fs.resolve p = .ok (.file b) →
      ∃ fs', fs.put p c = .ok fs' := by
    intro fs p
    induction p generalizing fs with
    | nil =>
      intro b c h
      simp only [resolve_nil, Except.ok.injEq] at h
      subst h
      exact ⟨_, rfl⟩
    | cons k p ih =>
      intro b c h
      cases fs with
      | file c0 => simp [resolve_file_cons] at h
      | dir es =>
        rw [resolve_dir_cons] at h
        cases hl : es.lookup k with
        | none => simp [hl] at h
        | some c1 =>
          rw [hl] at h
          obtain ⟨c', hc'⟩ := ih c1 b c h
          exact ⟨.dir (setEntry k c' es), by simp [Node.put, hl, hc']⟩
  obtain ⟨fs1, h1⟩ := hput fs p b [] hres
  have hr1 := put_resolve_self h1
  obtain ⟨fs2, h2⟩ := hput fs1 p [] [] hr1
  refine ⟨fs2, ?_, readAll_eq_ok.2 (put_resolve_self h2)⟩
  simp [copyFile, osOpen, hres, osCreate, h1, readAll, hr1, h2]

/-! ## The properties of the specification -/

set_option maxRecDepth 100000

/-- Values of the progress expression: thirds, and three of the hundredths where the rounded
quotient times 100 falls just below the integer. -/
theorem floatProgress_values :
    floatProgress 1 3 = 33 ∧ floatProgress 2 3 = 66 ∧ floatProgress 3 3 = 100 ∧
    floatProgress 1 1 = 100 ∧ floatProgress 29 100 = 28 ∧ floatProgress 57 100 = 56 ∧
    floatProgress 58 100 = 57 ∧ floatProgress 50 100 = 50 ∧ floatProgress 7 1 = 700 := by
  decide

theorem ocrSpaceFile_ok_readAll {service : OCRService} {fs : FS} {path : Path} {overlay : Bool}
    {apiKey language ocrEngine : String} {r : OCRResponse}
    (h : ocrSpaceFile service fs path overlay apiKey language ocrEngine = .ok r) :
    ∃ b, readAll fs path = .ok b := by
  unfold ocrSpaceFile at h
  cases h1 : osOpen fs path with
  | error e => simp [h1] at h
  | ok u =>
    cases h2 : readAll fs path with
    | error e => simp [h1, h2] at h
    | ok b => exact ⟨b, rfl⟩

theorem ensureFolder_readAll (out : Path) (s : ProcState) {p : Path} {b : Bytes}
    (h : readAll s.fs p = .ok b) : readAll (ensureFolder out s).1.fs p = .ok b := by
  rcases ensureFolder_eq out s with he | ⟨fs1, h1, he⟩
  · rw [he]; exact h
  · rw [he]
    exact readAll_eq_ok.2 (mkdirAll_resolve_file h1 p b (readAll_eq_ok.1 h))

theorem matching_of (info : FileInfo) (hdir : info.isDir = false)
    (hext : Ext info.name = ".jpg") : (!info.isDir && Ext info.name == ".jpg") = true := by
  simp [hdir, hext]

/-- C4: for a folder tree with `N` non-directory entries whose extension is exactly `.jpg`
and `M` non-directory entries with another extension, the count pass ends without error with
`totalImages = N`, whatever `M` is. -/
theorem countPass_counts_jpg (fs : FS) (inputFolder : Path) (tree : Node) (N M : Nat)
    (htree : fs.resolve inputFolder = .ok tree) (hwf : tree.WF)
    (hN : jpgCount (Base inputFolder) tree = N)
    (_hM : otherCount (Base inputFolder) tree = M) :
    countPass inputFolder fs = (N, none) := by
  rw [countPass_eq htree hwf, hN]

theorem countPass_counts_jpg_witness :
    (exDisk.resolve ["pics"] = .ok exTree ∧ exTree.WF ∧
      jpgCount (Base ["pics"]) exTree = 3 ∧ otherCount (Base ["pics"]) exTree = 3) ∧
    countPass ["pics"] exDisk = (3, none) :=
  ⟨⟨rfl, by simp [exTree, Node.WF, Node.WF.wfList], by decide, by decide⟩,
    countPass_counts_jpg exDisk ["pics"] exTree 3 3 rfl
      (by simp [exTree, Node.WF, Node.WF.wfList]) (by decide) (by decide)⟩

/-- C5: if the OCR call fails on the `k`-th file the process pass visits (the failed call has
`k - 1` OCR calls before it), it is the last call of the run: no OCR call, copy, progress
update or close follows, `k` OCR calls were made in all, and the counter and the number of
progress updates stay at `k - 1`. -/
theorem ocr_failure_stops_traversal (env : Env) (inputFolder : Path) (fs : FS) (k : Nat)
    (pre post : List Event) (path : Path) (e : Err)
    (h : (processImages env inputFolder fs).events = pre ++ .ocr path (some e) :: post)
    (hk : pre.countP Event.isOcr + 1 = k) :
    post = [] ∧
      (processImages env inputFolder fs).processedImages = k - 1 ∧
      (processImages env inputFolder fs).events.countP Event.isOcr = k ∧
      (processImages env inputFolder fs).events.countP Event.isSetValue = k - 1 := by
  obtain ⟨h1, -, -, h4⟩ := failed_event_last env inputFolder fs pre post (.ocr path (some e)) e
    rfl h
  obtain ⟨h5, h6⟩ := h4 rfl
  subst h1
  refine ⟨rfl, ?_, ?_, ?_⟩
  · show (processPass env inputFolder fs).1.processedImages = k - 1
    omega
  · rw [h]
    simp [List.countP_append, List.countP_cons, Event.isOcr, hk]
  · rw [h]
    simp [List.countP_append, List.countP_cons, Event.isSetValue]
    omega

theorem ocr_failure_stops_traversal_witness :
    ((processImages exEnvFailing ["pics"] exDisk).events =
        exCallsBefore ++ .ocr ["pics", "b.jpg"] (some .network) :: [] ∧
      exCallsBefore.countP Event.isOcr + 1 = 2) ∧
    (([] : List Event) = [] ∧
      (processImages exEnvFailing ["pics"] exDisk).processedImages = 2 - 1 ∧
      (processImages exEnvFailing ["pics"] exDisk).events.countP Event.isOcr = 2 ∧
      (processImages exEnvFailing ["pics"] exDisk).events.countP Event.isSetValue = 2 - 1) :=
  ⟨⟨by decide, by decide⟩,
    ocr_failure_stops_traversal exEnvFailing ["pics"] exDisk 2 exCallsBefore []
      ["pics", "b.jpg"] .network (by decide) (by decide)⟩

/-- C6, as the code has it: when a call made for a file (the OCR call or the copy) returns an
error, it is the last call of the run and `filepath.Walk` returns that error inside
`processImages`; `processImages` keeps none of it, its result is the state the traversal
stopped in. -/
theorem failure_stops_walk_only (env : Env) (inputFolder : Path) (fs : FS) (ev : Event)
    (e : Err) (hmem : ev ∈ (processPass env inputFolder fs).1.events)
    (hev : ev.err = some e) :
    (processPass env inputFolder fs).2 = some e ∧
      (∃ pre, (processPass env inputFolder fs).1.events = pre ++ [ev]) ∧
      processImages env inputFolder fs = (processPass env inputFolder fs).1 := by
  obtain ⟨pre, post, hsplit⟩ := List.append_of_mem hmem
  obtain ⟨h1, h2, -, -⟩ := failed_event_last env inputFolder fs pre post ev e hev hsplit
  subst h1
  exact ⟨h2, ⟨pre, hsplit⟩, rfl⟩

theorem failure_stops_walk_only_witness :
    (Event.ocr ["pics", "b.jpg"] (some .network) ∈
        (processPass exEnvFailing ["pics"] exDisk).1.events ∧
      (Event.ocr ["pics", "b.jpg"] (some .network)).err = some .network) ∧
    ((processPass exEnvFailing ["pics"] exDisk).2 = some .network ∧
      (∃ pre, (processPass exEnvFailing ["pics"] exDisk).1.events =
        pre ++ [.ocr ["pics", "b.jpg"] (some .network)]) ∧
      processImages exEnvFailing ["pics"] exDisk = (processPass exEnvFailing ["pics"] exDisk).1) :=
  ⟨⟨by decide, rfl⟩,
    failure_stops_walk_only exEnvFailing ["pics"] exDisk _ .network (by decide) rfl⟩

/-- C6, as stated, fails: on the same disk, a run whose OCR call fails in the network and a
run whose OCR reply fails to decode both stop in `filepath.Walk` with their error, and leave
the caller of `processImages` with the same disk, the same progress bar and the same window:
the error cannot be told from what the call hands back. -/
theorem error_not_surfaced :
    (processPass exEnvNetwork ["pics"] exDisk).2 = some .network ∧
    (processPass exEnvFormat ["pics"] exDisk).2 = some .responseFormat ∧
    visible (processImages exEnvNetwork ["pics"] exDisk) = (exDisk, []) ∧
    visible (processImages exEnvFormat ["pics"] exDisk) = (exDisk, []) :=
  ⟨by decide, by decide, rfl, rfl⟩

/-- C7: for a matching file whose OCR call succeeds with an empty `ParsedResults`, the
callback returns no error, leaves the disk as it was (no output file, no output folder),
adds one to the counter, and makes no call besides the OCR call, the progress update and,
after the last file, the close. -/
theorem no_results_no_output (env : Env) (outputFolder : Path) (total : Nat) (path : Path)
    (info : FileInfo) (s : ProcState) (r : OCRResponse)
    (hdir : info.isDir = false) (hext : Ext info.name = ".jpg")
    (hocr : ocrSpaceFile env.service s.fs path false "K81163354788957" "pol" "2" = .ok r)
    (hr : r.ParsedResults = []) :
    processFn env outputFolder total path info none s =
      (⟨s.fs, s.processedImages + 1,
        s.events ++ .ocr path none ::
          .setValue (env.progress (s.processedImages + 1) total) ::
            (if s.processedImages + 1 = total then [.close] else [])⟩, none) := by
  rw [processFn_no_results _ _ _ _ _ _ (matching_of info hdir hext) hocr hr, finishFile_eq]
  split <;> simp

theorem no_results_no_output_witness :
    ((⟨"b.jpg", false⟩ : FileInfo).isDir = false ∧ Ext (⟨"b.jpg", false⟩ : FileInfo).name = ".jpg" ∧
      ocrSpaceFile exEnv.service exDisk ["pics", "b.jpg"] false "K81163354788957" "pol" "2" =
        .ok (exResponse []) ∧
      (exResponse []).ParsedResults = []) ∧
    processFn exEnv ["pics", "Fotos Renomeadas"] 3 ["pics", "b.jpg"] ⟨"b.jpg", false⟩ none
        ⟨exDisk, 1, []⟩ =
      (⟨exDisk, 1 + 1, [] ++ .ocr ["pics", "b.jpg"] none ::
          .setValue (exEnv.progress (1 + 1) 3) :: (if 1 + 1 = 3 then [.close] else [])⟩, none) :=
  ⟨⟨rfl, by decide, rfl, rfl⟩,
    no_results_no_output exEnv ["pics", "Fotos Renomeadas"] 3 ["pics", "b.jpg"] ⟨"b.jpg", false⟩
      ⟨exDisk, 1, []⟩ (exResponse []) rfl (by decide) rfl rfl⟩

/-- C8: when the folder has `N ≥ 1` matching files and no OCR call and no copy of the run
fails, `mainWindow.Close` is called exactly once, directly after the progress update of the
`N`-th finished file (`processedImages = totalImages = N`): `N - 1` progress updates and no
close come before it, and no close comes after it. -/
theorem close_once_after_last_file (env : Env) (inputFolder : Path) (fs : FS) (tree : Node)
    (N : Nat) (htree : fs.resolve inputFolder = .ok tree) (hwf : tree.WF)
    (hN : jpgCount (Base inputFolder) tree = N) (hpos : 1 ≤ N)
    (hok : ∀ ev ∈ (processImages env inputFolder fs).events,
      ev.isOcr = true ∨ ev.isCopy = true → ev.err = none) :
    (processImages env inputFolder fs).events.count .close = 1 ∧
      ∃ pre post, (processImages env inputFolder fs).events =
          pre ++ [.setValue (env.progress N N), .close] ++ post ∧
        Event.close ∉ pre ∧ Event.close ∉ post ∧ pre.countP Event.isSetValue + 1 = N := by
  have htotal : (countPass inputFolder fs).1 = N := by rw [countPass_eq htree hwf, hN]
  have hstat : Lstat fs inputFolder = .ok ⟨Base inputFolder, tree.isDir⟩ :=
    Lstat_eq_ok.2 ⟨tree, htree, rfl⟩
  have hwalk : processPass env inputFolder fs =
      walk ProcState.fs (processFn env (Join inputFolder "Fotos Renomeadas") N)
        (walkFuel fs inputFolder) inputFolder ⟨Base inputFolder, tree.isDir⟩ ⟨fs, 0, []⟩ := by
    simp [processPass, Walk, hstat, htotal]
  have hinv : ∃ s', processPass env inputFolder fs = (s', none) ∧
      ProcInv env fs (walkFuel fs inputFolder) N s' := by
    rcases processPass_outcome env inputFolder fs with ⟨err, herr, -⟩ | ⟨-, hout⟩
    · rw [hstat] at herr
      cases herr
    · rw [htotal] at hout
      rcases hr : processPass env inputFolder fs with ⟨s', _ | e⟩
      · rw [hr] at hout
        exact ⟨s', rfl, hout⟩
      · rw [hr] at hout
        obtain ⟨s0, hs0, -, hshape⟩ := hout
        exfalso
        have hev : (processImages env inputFolder fs).events = s'.events := by
          simp [processImages, hr]
        rw [hev] at hok
        rcases hshape with ⟨p, hsh⟩ | ⟨p, dst, mid, hsh, -⟩
        · have := hok (.ocr p (some e)) (by simp only at hsh; rw [hsh]; simp) (Or.inl rfl)
          cases this
        · have := hok (.copy p dst (some e)) (by simp only at hsh; rw [hsh]; simp)
            (Or.inr rfl)
          cases this
  obtain ⟨s', hs', hinv'⟩ := hinv
  have hge := walk_processed_ge env fs (walkFuel fs inputFolder) N inputFolder
    (by simp [walkFuel]) (walkFuel fs inputFolder) inputFolder tree
    ⟨Base inputFolder, tree.isDir⟩ ⟨fs, 0, []⟩ (procInv_init env fs inputFolder N) hstat
    (by omega) htree hwf (by rw [← hwalk, hs'])
  rw [← hwalk, hs', hN] at hge
  simp only [Nat.zero_add] at hge
  have hev : (processImages env inputFolder fs).events = s'.events := by
    simp [processImages, hs']
  rw [hev]
  obtain ⟨pre, post, he, h1, h2, h3⟩ := hinv'.closeAfter (by omega) hge
  refine ⟨?_, pre, post, he, h1, h2, h3⟩
  rw [he]
  simp [List.count_append, List.count_cons, List.count_eq_zero_of_not_mem h1,
    List.count_eq_zero_of_not_mem h2]

theorem close_once_after_last_file_witness :
    (exDisk.resolve ["pics"] = .ok exTree ∧ exTree.WF ∧
      jpgCount (Base ["pics"]) exTree = 3 ∧ 1 ≤ 3 ∧
      ∀ ev ∈ (processImages exEnv ["pics"] exDisk).events,
        ev.isOcr = true ∨ ev.isCopy = true → ev.err = none) ∧
    ((processImages exEnv ["pics"] exDisk).events.count .close = 1 ∧
      ∃ pre post, (processImages exEnv ["pics"] exDisk).events =
          pre ++ [.setValue (exEnv.progress 3 3), .close] ++ post ∧
        Event.close ∉ pre ∧ Event.close ∉ post ∧ pre.countP Event.isSetValue + 1 = 3) :=
  ⟨⟨rfl, by simp [exTree, Node.WF, Node.WF.wfList], by decide, by decide, by decide⟩,
    close_once_after_last_file exEnv ["pics"] exDisk exTree 3 rfl
      (by simp [exTree, Node.WF, Node.WF.wfList]) (by decide) (by decide) (by decide)⟩

/-- C9 at the failing input: `a.jpg` holds the byte 1; copying it onto itself returns no
error and leaves it empty. `processImages` makes such a call when it walks a renamed copy in
the output folder: the OCR text gives the name the copy already has, and the run ends with
the copy emptied. -/
theorem copyFile_onto_itself_empties :
    (readAll exDisk ["pics", "a.jpg"] = .ok [1] ∧
      (copyFile exDisk ["pics", "a.jpg"] ["pics", "a.jpg"]).2 = none ∧
      readAll (copyFile exDisk ["pics", "a.jpg"] ["pics", "a.jpg"]).1 ["pics", "a.jpg"] =
        .ok []) ∧
    (readAll exDiskRenamed ["pics", "Fotos Renomeadas", "14.23.05.jpg"] = .ok [1] ∧
      (processImages exEnvTime ["pics"] exDiskRenamed).events =
        [.ocr ["pics", "Fotos Renomeadas", "14.23.05.jpg"] none,
         .copy ["pics", "Fotos Renomeadas", "14.23.05.jpg"]
           ["pics", "Fotos Renomeadas", "14.23.05.jpg"] none,
         .setValue 100, .close] ∧
      readAll (processImages exEnvTime ["pics"] exDiskRenamed).fs
        ["pics", "Fotos Renomeadas", "14.23.05.jpg"] = .ok []) :=
  ⟨⟨rfl, rfl, rfl⟩, rfl, by decide, rfl⟩

/-- For a matching file whose OCR result has a first parsed entry, the callback calls `copyFile`
with the destination `inputFolder/Fotos Renomeadas/<token>.jpg`; the disk and the returned
error are those of `copyFile`; and when it succeeds for a file that is not its own
destination, the destination holds the content of the file, whatever it held before. -/
theorem visitFile_copy (env : Env) (inputFolder : Path) (total : Nat) (path : Path)
    (info : FileInfo) (s : ProcState) (r : OCRResponse) (first : ParsedResult)
    (rest : List ParsedResult) (hdir : info.isDir = false) (hext : Ext info.name = ".jpg")
    (hocr : ocrSpaceFile env.service s.fs path false "K81163354788957" "pol" "2" = .ok r)
    (hr : r.ParsedResults = first :: rest) :
    destination inputFolder first.ParsedText =
        inputFolder ++ ["Fotos Renomeadas", extractTimePattern first.ParsedText ++ ".jpg"] ∧
      (extractTimePattern first.ParsedText = "" →
        destination inputFolder first.ParsedText = inputFolder ++ ["Fotos Renomeadas", ".jpg"]) ∧
      (visitFile env inputFolder total path info s).1.fs =
        (copyFile (beforeCopy inputFolder path s).fs path
          (destination inputFolder first.ParsedText)).1 ∧
      (visitFile env inputFolder total path info s).2 =
        (copyFile (beforeCopy inputFolder path s).fs path
          (destination inputFolder first.ParsedText)).2 ∧
      (∃ after, (visitFile env inputFolder total path info s).1.events =
        (beforeCopy inputFolder path s).events ++
          .copy path (destination inputFolder first.ParsedText)
            (copyFile (beforeCopy inputFolder path s).fs path
              (destination inputFolder first.ParsedText)).2 :: after) ∧
      ((visitFile env inputFolder total path info s).2 = none →
        path ≠ destination inputFolder first.ParsedText →
        readAll (visitFile env inputFolder total path info s).1.fs
          (destination inputFolder first.ParsedText) = readAll s.fs path) := by
  have hdest : destination inputFolder first.ParsedText =
      inputFolder ++ ["Fotos Renomeadas", extractTimePattern first.ParsedText ++ ".jpg"] := by
    simp [destination, Join]
  obtain ⟨hn, -⟩ := ensureFolder_spec (Join inputFolder "Fotos Renomeadas")
    { s with events := s.events ++ [.ocr path none] }
  have hE : ensureFolder (Join inputFolder "Fotos Renomeadas")
      { s with events := s.events ++ [.ocr path none] } =
      (beforeCopy inputFolder path s, none) := Prod.ext rfl hn
  have hfn := processFn_results env (Join inputFolder "Fotos Renomeadas") total path info s
    (matching_of info hdir hext) hocr hr hE
  obtain ⟨b, hb⟩ := ocrSpaceFile_ok_readAll hocr
  have hb2 : readAll (beforeCopy inputFolder path s).fs path = .ok b :=
    ensureFolder_readAll _ { s with events := s.events ++ [.ocr path none] } hb
  refine ⟨hdest, fun htok => by rw [hdest, htok]; rfl, ?_⟩
  unfold visitFile
  rw [hfn]
  change _ ∧ _ ∧ _ ∧ (_ → _ ≠ destination inputFolder first.ParsedText →
    readAll _ (destination inputFolder first.ParsedText) = _)
  rcases hC : copyFile (beforeCopy inputFolder path s).fs path
    (destination inputFolder first.ParsedText) with ⟨fs3, _ | e⟩
  · have hC' : copyFile (beforeCopy inputFolder path s).fs path
        (Join (Join inputFolder "Fotos Renomeadas")
          (extractTimePattern first.ParsedText ++ ".jpg")) = (fs3, none) := hC
    rw [hC']
    dsimp only
    refine ⟨finishFile_fs _ _ _, rfl, ?_, ?_⟩
    · obtain ⟨after, ha⟩ := finishFile_events env total
        { beforeCopy inputFolder path s with
          fs := fs3,
          events := (beforeCopy inputFolder path s).events ++
            [.copy path (Join (Join inputFolder "Fotos Renomeadas")
              (extractTimePattern first.ParsedText ++ ".jpg")) none] }
      exact ⟨after, by rw [ha]; simp [destination]⟩
    · intro _ hne
      rw [finishFile_fs, hb]
      exact copyFile_content hb2 hne hC
  · have hC' : copyFile (beforeCopy inputFolder path s).fs path
        (Join (Join inputFolder "Fotos Renomeadas")
          (extractTimePattern first.ParsedText ++ ".jpg")) = (fs3, some e) := hC
    rw [hC']
    exact ⟨rfl, rfl, ⟨[], by simp [destination]⟩, fun h => by simp at h⟩

/-- C10 at the failing input. On a first run over `pics` the file `sub/f.jpg`, whose text gives
the empty token, is copied to `pics/Fotos Renomeadas/.jpg` as the claim says: the folder is
created, the copy is made and the destination holds the byte 6. When the folder holds only
`Fotos Renomeadas/.jpg` (bytes 9, 9) from such a run, that file is a matching file with an
empty token and is its own destination: the run returns no error, makes the copy call with
both paths equal, counts the file, and leaves it empty instead of copied. -/
theorem empty_token_self_copy_empties :
    ((processImages exEnv ["pics"] exDisk).events =
        [.ocr ["pics", "a.jpg"] none, .mkdirAll ["pics", "Fotos Renomeadas"] none,
         .copy ["pics", "a.jpg"] ["pics", "Fotos Renomeadas", "14.23.05.jpg"] none,
         .setValue 33, .ocr ["pics", "b.jpg"] none, .setValue 66,
         .ocr ["pics", "sub", "f.jpg"] none,
         .copy ["pics", "sub", "f.jpg"] ["pics", "Fotos Renomeadas", ".jpg"] none,
         .setValue 100, .close] ∧
      Lstat exDisk ["pics", "Fotos Renomeadas"] = .error .notExist ∧
      readAll (processImages exEnv ["pics"] exDisk).fs ["pics", "Fotos Renomeadas", ".jpg"] =
        .ok [6]) ∧
    (Ext ".jpg" = ".jpg" ∧
      ocrSpaceFile exEnv.service exDiskDotJpg ["pics", "Fotos Renomeadas", ".jpg"] false
        "K81163354788957" "pol" "2" = .ok (exResponse [exParsed "no time here"]) ∧
      extractTimePattern "no time here" = "" ∧
      destination ["pics"] "no time here" = ["pics", "Fotos Renomeadas", ".jpg"] ∧
      readAll exDiskDotJpg ["pics", "Fotos Renomeadas", ".jpg"] = .ok [9, 9] ∧
      (processPass exEnv ["pics"] exDiskDotJpg).2 = none ∧
      (processImages exEnv ["pics"] exDiskDotJpg).events =
        [.ocr ["pics", "Fotos Renomeadas", ".jpg"] none,
         .copy ["pics", "Fotos Renomeadas", ".jpg"] ["pics", "Fotos Renomeadas", ".jpg"] none,
         .setValue 100, .close] ∧
      (processImages exEnv ["pics"] exDiskDotJpg).processedImages = 1 ∧
      readAll (processImages exEnv ["pics"] exDiskDotJpg).fs
        ["pics", "Fotos Renomeadas", ".jpg"] = .ok []) :=
  ⟨⟨by decide, rfl, rfl⟩, by decide, rfl, by decide, by decide, rfl, by decide, by decide,
    by decide, rfl⟩

end ImageRename
